import Mathlib

/-!
Verification of the minimax / alpha-beta game-search repository.

The repository contains three Python modules (`bucket_game.py`,
`halving_game.py`, `tic_tac_toe.py`), each defining a `Game` class
(`initial_state`, `to_move`, `actions`, `result`, `is_terminal`, `utility`)
together with a full-depth minimax search (`minimax_search` built from the
mutually recursive `max_value` / `min_value`, called `_max_plain` /
`_min_plain` in tic-tac-toe) and, for tic-tac-toe only, an alpha-beta
pruned search (`alfa_beta_search` built from `_max_ab` / `_min_ab`).

The embedding below follows the source line by line.  Python floats
`-inf`, `+inf` together with integer utilities are modelled by the type
`EInt` (an integer extended with two infinities) with the strict
comparison `EInt.blt` mirroring Python `<`.  The recursive search
functions take an explicit fuel argument (structural recursion on fuel);
every theorem that speaks about a search supplies enough fuel for the
recursion to run exactly as the Python recursion does.  The for-loops of
the Python value functions are embedded as the explicit list recursions
`scanMaxGo` / `scanMinGo` (plain minimax), `scanMaxGoM` (bucket game,
whose `utility` can raise an assertion, modelled by `Option`) and
`abMaxGo` / `abMinGo` (alpha-beta with its `break` statements).
-/

/-- Integers extended with `-inf` and `+inf`, modelling the Python floats
used as sentinels by the search code (all actual utilities are integers). -/
inductive EInt where
  | ninf : EInt
  | int  : Int → EInt
  | pinf : EInt
deriving DecidableEq, Repr

namespace EInt

/-- Python `x < y` on the values the search manipulates. -/
def blt : EInt → EInt → Bool
  | ninf, ninf => false
  | ninf, _ => true
  | int _, ninf => false
  | int a, int b => decide (a < b)
  | int _, pinf => true
  | pinf, _ => false

/-- Python `max(x, y)` (returns `y` only when `x < y`, like the source's
`alpha = max(alpha, v)` update). -/
def max (x y : EInt) : EInt := if blt x y then y else x

/-- Python `min(x, y)`. -/
def min (x y : EInt) : EInt := if blt y x then y else x

end EInt

/-- The accumulator loop of every plain maximizing value function:
`v, best = -inf, None; for a in l: v2 = f a; if v2 > v: v, best = v2, a`.
The accumulator `(v, best)` is threaded explicitly. -/
def scanMaxGo {A : Type} (f : A → EInt) : List A → EInt → Option A → EInt × Option A
  | [], v, best => (v, best)
  | a :: l, v, best =>
    if EInt.blt v (f a) then scanMaxGo f l (f a) (some a) else scanMaxGo f l v best

/-- The accumulator loop of the (correct) minimizing value functions:
`v, best = +inf, None; for a in l: v2 = f a; if v2 < v: v, best = v2, a`. -/
def scanMinGo {A : Type} (f : A → EInt) : List A → EInt → Option A → EInt × Option A
  | [], v, best => (v, best)
  | a :: l, v, best =>
    if EInt.blt (f a) v then scanMinGo f l (f a) (some a) else scanMinGo f l v best

/-- The bucket game's value-function loop, where evaluating a successor can
raise a Python `AssertionError` (modelled by `none`), which aborts the loop. -/
def scanMaxGoM {A : Type} (f : A → Option EInt) :
    List A → EInt → Option A → Option (EInt × Option A)
  | [], v, best => some (v, best)
  | a :: l, v, best =>
    match f a with
    | none => none
    | some v2 =>
      if EInt.blt v v2 then scanMaxGoM f l v2 (some a) else scanMaxGoM f l v best

/-- The bucket game's buggy minimizing loop would need a correct counterpart:
the exception-propagating version of `scanMinGo`, used only by the
spec-modelled mirror `Bucket.min_value_mirror`. -/
def scanMinGoM {A : Type} (f : A → Option EInt) :
    List A → EInt → Option A → Option (EInt × Option A)
  | [], v, best => some (v, best)
  | a :: l, v, best =>
    match f a with
    | none => none
    | some v2 =>
      if EInt.blt v2 v then scanMinGoM f l v2 (some a) else scanMinGoM f l v best

/-- The loop of the alpha-beta maximizer `_max_ab`:
`v, best = -inf, None; for a in l: v2 = f(a, alpha); if v2 > v: v, best = v2, a;
alpha = max(alpha, v); if v >= beta: break`.  The node's `beta` is fixed, the
running `alpha` is threaded; `f a alpha` is the recursive `_min_ab` call. -/
def abMaxGo {A : Type} (f : A → EInt → EInt) (beta : EInt) :
    List A → EInt → Option A → EInt → EInt × Option A
  | [], v, best, _ => (v, best)
  | a :: l, v, best, alpha =>
    if EInt.blt v (f a alpha) then
      if EInt.blt (f a alpha) beta then
        abMaxGo f beta l (f a alpha) (some a) (EInt.max alpha (f a alpha))
      else (f a alpha, some a)
    else
      if EInt.blt v beta then abMaxGo f beta l v best alpha else (v, best)

/-- The loop of the alpha-beta minimizer `_min_ab`: mirror of `abMaxGo`,
with fixed `alpha`, threaded `beta`, and the `v <= alpha` break. -/
def abMinGo {A : Type} (f : A → EInt → EInt) (alpha : EInt) :
    List A → EInt → Option A → EInt → EInt × Option A
  | [], v, best, _ => (v, best)
  | a :: l, v, best, beta =>
    if EInt.blt (f a beta) v then
      if EInt.blt alpha (f a beta) then
        abMinGo f alpha l (f a beta) (some a) (EInt.min beta (f a beta))
      else (f a beta, some a)
    else
      if EInt.blt alpha v then abMinGo f alpha l v best beta else (v, best)

/-- The maximum that the plain maximizing loop is meant to compute: fold of
`EInt.max` over the child values `f a`, starting from `v`. -/
def gmax {A : Type} (f : A → EInt) (l : List A) (v : EInt) : EInt :=
  l.foldl (fun acc a => EInt.max acc (f a)) v

/-- Fold of `EInt.min`, the value the minimizing loop computes. -/
def gmin {A : Type} (f : A → EInt) (l : List A) (v : EInt) : EInt :=
  l.foldl (fun acc a => EInt.min acc (f a)) v

namespace Halving

/-- State `(player_index, number_remaining)`; the player index is one of the
two values `0`, `1` (the code only ever builds it with `(p + 1) % 2`). -/
abbrev State := Fin 2 × Int

abbrev Action := String

/-- `Game.initial_state` for a given `N`. -/
def initial_state (N : Int) : State := (0, N)

/-- `Game.to_move`. -/
def to_move (s : State) : Fin 2 := s.1

/-- `Game.actions`: always the two moves, whatever the state. -/
def actions (_ : State) : List Action := ["--", "/2"]

/-- `Game.result`: decrement, or floor-halve (Python `//`, hence `Int.fdiv`). -/
def result (s : State) (a : Action) : State :=
  if a = "--" then (to_move s + 1, s.2 - 1) else (to_move s + 1, Int.fdiv s.2 2)

/-- `Game.is_terminal`: the number reached zero. -/
def is_terminal (s : State) : Bool := s.2 == 0

/-- `Game.utility` (the source asserts `is_terminal` first; every theorem
using `utility` carries that hypothesis). -/
def utility (s : State) (player : Fin 2) : Int :=
  if to_move s = player then 1 else -1

mutual
/-- `max_value` of halving_game.py, with explicit fuel. -/
def max_value : Nat → State → Fin 2 → EInt × Option Action
  | 0, _, _ => (.ninf, none)
  | fuel + 1, s, player =>
    if is_terminal s then (.int (utility s player), none)
    else scanMaxGo (fun a => (min_value fuel (result s a) player).1) (actions s) .ninf none

/-- `min_value` of halving_game.py (this one is a correct minimizer). -/
def min_value : Nat → State → Fin 2 → EInt × Option Action
  | 0, _, _ => (.pinf, none)
  | fuel + 1, s, player =>
    if is_terminal s then (.int (utility s player), none)
    else scanMinGo (fun a => (max_value fuel (result s a) player).1) (actions s) .pinf none
end

/-- `minimax_search` of halving_game.py. -/
def minimax_search (fuel : Nat) (s : State) : Option Action :=
  (max_value fuel s (to_move s)).2

end Halving

namespace Bucket

/-- The actions of bucket_game.py: a bucket label (`'A'`, `'B'`, `'C'` — the
only strings `result` accepts, per its `assert`) or an integer reward. -/
inductive BAct where
  | A : BAct
  | B : BAct
  | C : BAct
  | num : Int → BAct
deriving DecidableEq, Repr

/-- State `(player_index, actions)` as described by the module docstring. -/
abbrev State := Fin 2 × List BAct

abbrev Action := BAct

/-- `Game.initial_state`. -/
def initial_state : State := (0, [.A, .B, .C])

/-- `Game.to_move`. -/
def to_move (s : State) : Fin 2 := s.1

/-- `Game.actions`: the stored list itself. -/
def actions (s : State) : List Action := s.2

/-- `Game.result`: a bucket label is replaced by its two rewards, an integer
reward becomes the single-element terminal list. -/
def result (s : State) (a : Action) : State :=
  match a with
  | .A => (to_move s + 1, [.num (-50), .num 50])
  | .B => (to_move s + 1, [.num 3, .num 1])
  | .C => (to_move s + 1, [.num (-5), .num 15])
  | .num n => (to_move s + 1, [.num n])

/-- `Game.is_terminal`: exactly one action left. -/
def is_terminal (s : State) : Bool := s.2.length == 1

/-- `Game.utility`: the single stored integer for the player to move, negated
for the opponent.  `none` models the two Python `assert` failures (state not
terminal, or the single element not an integer). -/
def utility (s : State) (player : Fin 2) : Option Int :=
  match s.2 with
  | [BAct.num n] => some (if player = to_move s then n else -n)
  | _ => none

mutual
/-- `max_value` of bucket_game.py; `none` models a propagated assertion
failure from `utility` (and fuel exhaustion, which never occurs in the
theorems below). -/
def max_value : Nat → State → Fin 2 → Option (EInt × Option Action)
  | 0, _, _ => none
  | fuel + 1, s, player =>
    if is_terminal s then (utility s player).map (fun u => (.int u, none))
    else scanMaxGoM (fun a => (min_value fuel (result s a) player).map (fun r => r.1))
      (actions s) .ninf none

/-- `min_value` of bucket_game.py.  NOTE: the source initializes
`v = float("-inf")` and updates on `v2 > v` — it is a second MAXIMIZING
loop (over `max_value` of the successors), not the minimizer its docstring
announces.  The embedding reproduces that faithfully via `scanMaxGoM`. -/
def min_value : Nat → State → Fin 2 → Option (EInt × Option Action)
  | 0, _, _ => none
  | fuel + 1, s, player =>
    if is_terminal s then (utility s player).map (fun u => (.int u, none))
    else scanMaxGoM (fun a => (max_value fuel (result s a) player).map (fun r => r.1))
      (actions s) .ninf none
end

/-- `minimax_search` of bucket_game.py. -/
def minimax_search (fuel : Nat) (s : State) : Option (Option Action) :=
  (max_value fuel s (to_move s)).map (fun r => r.2)

/-- Modelled from the spec: the minimizer that `min_value`'s own docstring
and the spec describe — "symmetric, seeking the minimum, using `max_value`
on successors".  One level of the mirror loop (initial `+inf`, update on
`v2 < v`), with the real `max_value` on the successor states. -/
def min_value_mirror (fuel : Nat) (s : State) (player : Fin 2) :
    Option (EInt × Option Action) :=
  match fuel with
  | 0 => none
  | fuel + 1 =>
    if is_terminal s then (utility s player).map (fun u => (.int u, none))
    else scanMinGoM (fun a => (max_value fuel (result s a) player).map (fun r => r.1))
      (actions s) .pinf none

end Bucket

namespace TicTacToe

abbrev Player := Fin 2

/-- A board cell holds `None` or a player index; the board is 3 by 3. -/
abbrev Board := Fin 3 → Fin 3 → Option Player

/-- State `(player_index, board)`. -/
abbrev State := Player × Board

/-- An action is a `(row, column)` pair. -/
abbrev Action := Fin 3 × Fin 3

/-- `Game.initial_state`: empty board, player 0 to move. -/
def initial_state : State := (0, fun _ _ => none)

/-- `Game.to_move`. -/
def to_move (s : State) : Player := s.1

/-- The coordinate enumeration order of
`[(r, c) for r in range(3) for c in range(3)]`. -/
def allCoords : List Action :=
  [(0, 0), (0, 1), (0, 2), (1, 0), (1, 1), (1, 2), (2, 0), (2, 1), (2, 2)]

/-- `Game.actions`: the empty cells, row-major. -/
def actions (s : State) : List Action :=
  allCoords.filter (fun rc => (s.2 rc.1 rc.2).isNone)

/-- `Game.result`: fresh board equal to the old one except that the chosen
cell now holds the mover's mark; the player index alternates. -/
def result (s : State) (a : Action) : State :=
  (to_move s + 1,
   fun r c => if r = a.1 ∧ c = a.2 then some (to_move s) else s.2 r c)

/-- `Game.is_winner`: any full row, column or diagonal of `player`'s marks. -/
def is_winner (s : State) (player : Player) : Bool :=
  (([0, 1, 2] : List (Fin 3)).any fun r =>
    ([0, 1, 2] : List (Fin 3)).all fun c => decide (s.2 r c = some player)) ||
  (([0, 1, 2] : List (Fin 3)).any fun c =>
    ([0, 1, 2] : List (Fin 3)).all fun r => decide (s.2 r c = some player)) ||
  ((([0, 1, 2] : List (Fin 3)).all fun i => decide (s.2 i i = some player)) ||
   (([0, 1, 2] : List (Fin 3)).all fun i => decide (s.2 i (2 - i) = some player)))

/-- `Game.is_terminal`: the previous mover has a line, or the board is full. -/
def is_terminal (s : State) : Bool :=
  is_winner s (to_move s + 1) || allCoords.all (fun rc => (s.2 rc.1 rc.2).isSome)

/-- `Game.utility` (the source asserts `is_terminal` first; every theorem
using `utility` carries that hypothesis). -/
def utility (s : State) (player : Player) : Int :=
  if is_winner s player then 1 else if is_winner s (player + 1) then -1 else 0

mutual
/-- `_max_plain` of tic_tac_toe.py, with explicit fuel. -/
def _max_plain : Nat → State → Player → EInt × Option Action
  | 0, _, _ => (.ninf, none)
  | fuel + 1, s, player =>
    if is_terminal s then (.int (utility s player), none)
    else scanMaxGo (fun a => ( _min_plain fuel (result s a) player).1) (actions s) .ninf none

/-- `_min_plain` of tic_tac_toe.py. -/
def _min_plain : Nat → State → Player → EInt × Option Action
  | 0, _, _ => (.pinf, none)
  | fuel + 1, s, player =>
    if is_terminal s then (.int (utility s player), none)
    else scanMinGo (fun a => ( _max_plain fuel (result s a) player).1) (actions s) .pinf none
end

/-- `minimax_search` of tic_tac_toe.py. -/
def minimax_search (fuel : Nat) (s : State) : Option Action :=
  (_max_plain fuel s (to_move s)).2

mutual
/-- `_max_ab` of tic_tac_toe.py, with explicit fuel. -/
def _max_ab : Nat → State → Player → EInt → EInt → EInt × Option Action
  | 0, _, _, _, _ => (.ninf, none)
  | fuel + 1, s, player, alpha, beta =>
    if is_terminal s then (.int (utility s player), none)
    else abMaxGo (fun a al => ( _min_ab fuel (result s a) player al beta).1) beta
      (actions s) .ninf none alpha

/-- `_min_ab` of tic_tac_toe.py. -/
def _min_ab : Nat → State → Player → EInt → EInt → EInt × Option Action
  | 0, _, _, _, _ => (.pinf, none)
  | fuel + 1, s, player, alpha, beta =>
    if is_terminal s then (.int (utility s player), none)
    else abMinGo (fun a bt => ( _max_ab fuel (result s a) player alpha bt).1) alpha
      (actions s) .pinf none beta
end

/-- `alfa_beta_search` of tic_tac_toe.py: root window `(-inf, +inf)`. -/
def alfa_beta_search (fuel : Nat) (s : State) : Option Action :=
  (_max_ab fuel s (to_move s) .ninf .pinf).2

/-- The states the drivers can ever hold (spec: "States are created by
`initial_state` or by applying `result` to a prior state"); the driver
applies `result` only with a search-chosen (hence legal) action on a
non-terminal state. -/
inductive Reachable : State → Prop where
  | init : Reachable initial_state
  | step {s : State} {a : Action} : Reachable s → is_terminal s = false →
      a ∈ actions s → Reachable (result s a)

end TicTacToe

namespace EInt

theorem blt_irrefl (x : EInt) : blt x x = false := by
  cases x <;> simp [blt]

theorem blt_asymm {x y : EInt} (h : blt x y = true) : blt y x = false := by
  cases x <;> cases y <;> simp_all [blt] <;> omega

theorem blt_trans {x y z : EInt} (h1 : blt x y = true) (h2 : blt y z = true) :
    blt x z = true := by
  cases x <;> cases y <;> cases z <;> simp_all [blt] <;> omega

theorem lt_of_le_of_lt {x y z : EInt} (h1 : blt y x = false) (h2 : blt y z = true) :
    blt x z = true := by
  cases x <;> cases y <;> cases z <;> simp_all [blt] <;> omega

theorem lt_of_lt_of_le {x y z : EInt} (h1 : blt x y = true) (h2 : blt z y = false) :
    blt x z = true := by
  cases x <;> cases y <;> cases z <;> simp_all [blt] <;> omega

theorem le_trans {x y z : EInt} (h1 : blt y x = false) (h2 : blt z y = false) :
    blt z x = false := by
  cases x <;> cases y <;> cases z <;> simp_all [blt] <;> omega

theorem le_antisymm {x y : EInt} (h1 : blt x y = false) (h2 : blt y x = false) :
    x = y := by
  cases x <;> cases y <;> simp_all [blt] <;> omega

theorem le_total {x y : EInt} (h : blt x y = false) : blt y x = true ∨ x = y := by
  cases x <;> cases y <;> simp_all [blt] <;> omega

theorem blt_ninf (x : EInt) : blt x ninf = false := by
  cases x <;> simp [blt]

theorem ninf_blt {x : EInt} (h : x ≠ ninf) : blt ninf x = true := by
  cases x <;> simp_all [blt]

theorem pinf_blt (x : EInt) : blt pinf x = false := by
  cases x <;> simp [blt]

theorem blt_pinf {x : EInt} (h : x ≠ pinf) : blt x pinf = true := by
  cases x <;> simp_all [blt]

theorem ne_ninf_of_blt {x y : EInt} (h : blt x y = true) : y ≠ ninf := by
  intro hy; subst hy; simp [blt_ninf] at h

theorem ne_pinf_of_blt {x y : EInt} (h : blt x y = true) : x ≠ pinf := by
  intro hx; subst hx; simp [pinf_blt] at h

theorem max_eq_right {x y : EInt} (h : blt x y = true) : max x y = y := by
  simp [max, h]

theorem max_eq_left {x y : EInt} (h : blt x y = false) : max x y = x := by
  simp [max, h]

theorem le_max_left (x y : EInt) : blt (max x y) x = false := by
  cases x <;> cases y <;> simp [max, blt] <;> split_ifs <;> simp [blt] <;> omega

theorem le_max_right (x y : EInt) : blt (max x y) y = false := by
  cases x <;> cases y <;> simp [max, blt] <;> split_ifs <;> simp [blt] <;> omega

theorem max_le {x y z : EInt} (h1 : blt z x = false) (h2 : blt z y = false) :
    blt z (max x y) = false := by
  cases x <;> cases y <;> cases z <;> simp_all [max, blt] <;> split_ifs <;>
    simp_all [blt] <;> omega

theorem max_blt {x y z : EInt} (h1 : blt x z = true) (h2 : blt y z = true) :
    blt (max x y) z = true := by
  cases x <;> cases y <;> cases z <;> simp_all [max, blt] <;> split_ifs <;>
    simp_all [blt] <;> omega

theorem blt_max_left {x y z : EInt} (h : blt z x = true) : blt z (max x y) = true := by
  cases x <;> cases y <;> cases z <;> simp_all [max, blt] <;> split_ifs <;>
    simp_all [blt] <;> omega

theorem blt_max_right {x y z : EInt} (h : blt z y = true) : blt z (max x y) = true := by
  cases x <;> cases y <;> cases z <;> simp_all [max, blt] <;> split_ifs <;>
    simp_all [blt] <;> omega

theorem max_assoc (x y z : EInt) : max (max x y) z = max x (max y z) := by
  cases x <;> cases y <;> cases z <;> simp [max, blt] <;> split_ifs <;>
    simp_all [blt] <;> omega

theorem max_ninf_left (x : EInt) : max ninf x = x := by
  cases x <;> simp [max, blt]

theorem max_ninf_right (x : EInt) : max x ninf = x := by
  cases x <;> simp [max, blt]

theorem min_eq_right {x y : EInt} (h : blt y x = true) : min x y = y := by
  simp [min, h]

theorem min_eq_left {x y : EInt} (h : blt y x = false) : min x y = x := by
  simp [min, h]

theorem min_le_left (x y : EInt) : blt x (min x y) = false := by
  cases x <;> cases y <;> simp [min, blt] <;> split_ifs <;> simp [blt] <;> omega

theorem min_le_right (x y : EInt) : blt y (min x y) = false := by
  cases x <;> cases y <;> simp [min, blt] <;> split_ifs <;> simp [blt] <;> omega

theorem le_min {x y z : EInt} (h1 : blt x z = false) (h2 : blt y z = false) :
    blt (min x y) z = false := by
  cases x <;> cases y <;> cases z <;> simp_all [min, blt] <;> split_ifs <;>
    simp_all [blt] <;> omega

theorem blt_min {x y z : EInt} (h1 : blt z x = true) (h2 : blt z y = true) :
    blt z (min x y) = true := by
  cases x <;> cases y <;> cases z <;> simp_all [min, blt] <;> split_ifs <;>
    simp_all [blt] <;> omega

theorem min_blt_left {x y z : EInt} (h : blt x z = true) : blt (min x y) z = true := by
  cases x <;> cases y <;> cases z <;> simp_all [min, blt] <;> split_ifs <;>
    simp_all [blt] <;> omega

theorem min_blt_right {x y z : EInt} (h : blt y z = true) : blt (min x y) z = true := by
  cases x <;> cases y <;> cases z <;> simp_all [min, blt] <;> split_ifs <;>
    simp_all [blt] <;> omega

theorem min_assoc (x y z : EInt) : min (min x y) z = min x (min y z) := by
  cases x <;> cases y <;> cases z <;> simp [min, blt] <;> split_ifs <;>
    simp_all [blt] <;> omega

theorem min_pinf_left (x : EInt) : min pinf x = x := by
  cases x <;> simp [min, blt]

theorem min_pinf_right (x : EInt) : min x pinf = x := by
  cases x <;> simp [min, blt]

theorem max_le_elim {x y r : EInt} (h1 : blt (max x y) r = false)
    (h2 : blt x r = true) : blt y r = false := by
  unfold max at h1
  split at h1
  · exact h1
  · exact absurd h2 (by simp [h1])

theorem eq_max_elim {x y r : EInt} (h1 : r = max x y) (h2 : blt x r = true) : r = y := by
  unfold max at h1
  split at h1
  · exact h1
  · subst h1; exact absurd h2 (by simp [blt_irrefl])

theorem le_alpha_of_max {a0 v w : EInt} (h1 : blt (max a0 v) w = false)
    (h2 : blt v w = true) : blt a0 w = false := by
  unfold max at h1
  split at h1
  · exact absurd h2 (by simp [h1])
  · exact h1

theorem min_le_elim {x y r : EInt} (h1 : blt r (min x y) = false)
    (h2 : blt r x = true) : blt r y = false := by
  unfold min at h1
  split at h1
  · exact h1
  · exact absurd h2 (by simp [h1])

theorem eq_min_elim {x y r : EInt} (h1 : r = min x y) (h2 : blt r x = true) : r = y := by
  unfold min at h1
  split at h1
  · exact h1
  · subst h1; exact absurd h2 (by simp [blt_irrefl])

theorem ge_beta_of_min {b0 v w : EInt} (h1 : blt w (min b0 v) = false)
    (h2 : blt w v = true) : blt w b0 = false := by
  unfold min at h1
  split at h1
  · exact absurd h2 (by simp [h1])
  · exact h1

end EInt

theorem gmax_nil {A : Type} (f : A → EInt) (v : EInt) : gmax f [] v = v := rfl

theorem gmax_cons {A : Type} (f : A → EInt) (a : A) (l : List A) (v : EInt) :
    gmax f (a :: l) v = gmax f l (EInt.max v (f a)) := rfl

theorem gmax_max {A : Type} (f : A → EInt) (l : List A) (x y : EInt) :
    gmax f l (EInt.max x y) = EInt.max x (gmax f l y) := by
  induction l generalizing y with
  | nil => rfl
  | cons a t ih =>
    rw [gmax_cons, EInt.max_assoc, ih, gmax_cons]

theorem gmax_init {A : Type} (f : A → EInt) (l : List A) (v : EInt) :
    gmax f l v = EInt.max v (gmax f l .ninf) := by
  rw [← gmax_max, EInt.max_ninf_right]

theorem le_gmax_init {A : Type} (f : A → EInt) (l : List A) (v : EInt) :
    EInt.blt (gmax f l v) v = false := by
  rw [gmax_init]; exact EInt.le_max_left _ _

theorem le_gmax_mem {A : Type} (f : A → EInt) {l : List A} {a : A} (h : a ∈ l)
    (v : EInt) : EInt.blt (gmax f l v) (f a) = false := by
  induction l generalizing v with
  | nil => cases h
  | cons x t ih =>
    rcases List.mem_cons.1 h with h | h
    · subst h
      rw [gmax_cons]
      exact EInt.le_trans (EInt.le_max_right _ _) (le_gmax_init _ _ _)
    · exact ih h _

theorem gmax_mono {A : Type} (f : A → EInt) (l : List A) {x y : EInt}
    (h : EInt.blt y x = false) : EInt.blt (gmax f l y) (gmax f l x) = false := by
  rw [gmax_init f l x, gmax_init f l y]
  exact EInt.max_le (EInt.le_trans h (EInt.le_max_left y _)) (EInt.le_max_right y _)

theorem gmax_le {A : Type} (f : A → EInt) {l : List A} {v c : EInt}
    (h1 : ∀ a ∈ l, EInt.blt c (f a) = false) (h2 : EInt.blt c v = false) :
    EInt.blt c (gmax f l v) = false := by
  induction l generalizing v with
  | nil => exact h2
  | cons a t ih =>
    rw [gmax_cons]
    exact ih (fun x hx => h1 x (List.mem_cons_of_mem a hx))
      (EInt.max_le h2 (h1 a (List.mem_cons_self a t)))

theorem gmax_drop_init {A : Type} (f : A → EInt) {l : List A} {v : EInt}
    (h : EInt.blt v (gmax f l v) = true) : gmax f l v = gmax f l .ninf := by
  rw [gmax_init] at h ⊢
  unfold EInt.max at h ⊢
  split at h
  · split
    · rfl
    · simp_all
  · exact absurd (EInt.blt_irrefl v) (by simp [h])

theorem gmin_nil {A : Type} (f : A → EInt) (v : EInt) : gmin f [] v = v := rfl

theorem gmin_cons {A : Type} (f : A → EInt) (a : A) (l : List A) (v : EInt) :
    gmin f (a :: l) v = gmin f l (EInt.min v (f a)) := rfl

theorem gmin_min {A : Type} (f : A → EInt) (l : List A) (x y : EInt) :
    gmin f l (EInt.min x y) = EInt.min x (gmin f l y) := by
  induction l generalizing y with
  | nil => rfl
  | cons a t ih =>
    rw [gmin_cons, EInt.min_assoc, ih, gmin_cons]

theorem gmin_init {A : Type} (f : A → EInt) (l : List A) (v : EInt) :
    gmin f l v = EInt.min v (gmin f l .pinf) := by
  rw [← gmin_min, EInt.min_pinf_right]

theorem gmin_le_init {A : Type} (f : A → EInt) (l : List A) (v : EInt) :
    EInt.blt v (gmin f l v) = false := by
  rw [gmin_init]; exact EInt.min_le_left _ _

theorem gmin_le_mem {A : Type} (f : A → EInt) {l : List A} {a : A} (h : a ∈ l)
    (v : EInt) : EInt.blt (f a) (gmin f l v) = false := by
  induction l generalizing v with
  | nil => cases h
  | cons x t ih =>
    rcases List.mem_cons.1 h with h | h
    · subst h
      rw [gmin_cons]
      exact EInt.le_trans (gmin_le_init _ _ _) (EInt.min_le_right _ _)
    · exact ih h _

theorem gmin_mono {A : Type} (f : A → EInt) (l : List A) {x y : EInt}
    (h : EInt.blt x y = false) : EInt.blt (gmin f l x) (gmin f l y) = false := by
  rw [gmin_init f l x, gmin_init f l y]
  exact EInt.le_min (EInt.le_trans (EInt.min_le_left y _) h) (EInt.min_le_right y _)

theorem le_gmin {A : Type} (f : A → EInt) {l : List A} {v c : EInt}
    (h1 : ∀ a ∈ l, EInt.blt (f a) c = false) (h2 : EInt.blt v c = false) :
    EInt.blt (gmin f l v) c = false := by
  induction l generalizing v with
  | nil => exact h2
  | cons a t ih =>
    rw [gmin_cons]
    exact ih (fun x hx => h1 x (List.mem_cons_of_mem a hx))
      (EInt.le_min h2 (h1 a (List.mem_cons_self a t)))

theorem gmin_drop_init {A : Type} (f : A → EInt) {l : List A} {v : EInt}
    (h : EInt.blt (gmin f l v) v = true) : gmin f l v = gmin f l .pinf := by
  rw [gmin_init] at h ⊢
  unfold EInt.min at h ⊢
  split at h
  · split
    · rfl
    · simp_all
  · exact absurd (EInt.blt_irrefl v) (by simp [h])

/-- The plain maximizing loop computes exactly the fold of `EInt.max`. -/
theorem scanMaxGo_fst {A : Type} (f : A → EInt) (l : List A) (v : EInt)
    (b : Option A) : (scanMaxGo f l v b).1 = gmax f l v := by
  induction l generalizing v b with
  | nil => rfl
  | cons a t ih =>
    rw [scanMaxGo, gmax_cons]
    by_cases h : EInt.blt v (f a) = true
    · rw [if_pos h, ih, EInt.max_eq_right h]
    · rw [if_neg (by simp_all), ih,
        EInt.max_eq_left (by simp_all)]

/-- The plain minimizing loop computes exactly the fold of `EInt.min`. -/
theorem scanMinGo_fst {A : Type} (f : A → EInt) (l : List A) (v : EInt)
    (b : Option A) : (scanMinGo f l v b).1 = gmin f l v := by
  induction l generalizing v b with
  | nil => rfl
  | cons a t ih =>
    rw [scanMinGo, gmin_cons]
    by_cases h : EInt.blt (f a) v = true
    · rw [if_pos h, ih, EInt.min_eq_right h]
    · rw [if_neg (by simp_all), ih,
        EInt.min_eq_left (by simp_all)]

/-- First-argmax characterization of the maximizing loop: either no element
beats the incoming accumulator, or the loop returns the value of the FIRST
element achieving the final maximum; all earlier elements are strictly below
it and no later element is above it. -/
theorem scanMaxGo_spec {A : Type} (f : A → EInt) :
    ∀ (l : List A) (v : EInt) (b : Option A),
    (scanMaxGo f l v b = (v, b) ∧ ∀ x ∈ l, EInt.blt v (f x) = false)
    ∨ (∃ l1 a l2, l = l1 ++ a :: l2 ∧ scanMaxGo f l v b = (f a, some a)
        ∧ EInt.blt v (f a) = true
        ∧ (∀ x ∈ l1, EInt.blt (f x) (f a) = true)
        ∧ (∀ x ∈ l2, EInt.blt (f a) (f x) = false)) := by
  intro l
  induction l with
  | nil => exact fun v b => Or.inl ⟨rfl, by simp⟩
  | cons a t ih =>
    intro v b
    by_cases h : EInt.blt v (f a) = true
    · rcases ih (f a) (some a) with ⟨heq, hall⟩ | ⟨l1, c, l2, hdec, heq, hlt, hbef, haft⟩
      · refine Or.inr ⟨[], a, t, by simp, ?_, h, by simp, hall⟩
        rw [scanMaxGo, if_pos h, heq]
      · refine Or.inr ⟨a :: l1, c, l2, by simp [hdec], ?_, EInt.blt_trans h hlt, ?_, haft⟩
        · rw [scanMaxGo, if_pos h, heq]
        · intro x hx
          rcases List.mem_cons.1 hx with hx | hx
          · subst hx; exact hlt
          · exact hbef x hx
    · rcases ih v b with ⟨heq, hall⟩ | ⟨l1, c, l2, hdec, heq, hlt, hbef, haft⟩
      · refine Or.inl ⟨?_, ?_⟩
        · rw [scanMaxGo, if_neg (by simp_all), heq]
        · intro x hx
          rcases List.mem_cons.1 hx with hx | hx
          · subst hx; simp_all
          · exact hall x hx
      · refine Or.inr ⟨a :: l1, c, l2, by simp [hdec], ?_, hlt, ?_, haft⟩
        · rw [scanMaxGo, if_neg (by simp_all), heq]
        · intro x hx
          rcases List.mem_cons.1 hx with hx | hx
          · subst hx
            exact EInt.lt_of_le_of_lt (by simp_all) hlt
          · exact hbef x hx

/-- First-argmin characterization of the minimizing loop, mirror of
`scanMaxGo_spec`. -/
theorem scanMinGo_spec {A : Type} (f : A → EInt) :
    ∀ (l : List A) (v : EInt) (b : Option A),
    (scanMinGo f l v b = (v, b) ∧ ∀ x ∈ l, EInt.blt (f x) v = false)
    ∨ (∃ l1 a l2, l = l1 ++ a :: l2 ∧ scanMinGo f l v b = (f a, some a)
        ∧ EInt.blt (f a) v = true
        ∧ (∀ x ∈ l1, EInt.blt (f a) (f x) = true)
        ∧ (∀ x ∈ l2, EInt.blt (f x) (f a) = false)) := by
  intro l
  induction l with
  | nil => exact fun v b => Or.inl ⟨rfl, by simp⟩
  | cons a t ih =>
    intro v b
    by_cases h : EInt.blt (f a) v = true
    · rcases ih (f a) (some a) with ⟨heq, hall⟩ | ⟨l1, c, l2, hdec, heq, hlt, hbef, haft⟩
      · refine Or.inr ⟨[], a, t, by simp, ?_, h, by simp, hall⟩
        rw [scanMinGo, if_pos h, heq]
      · refine Or.inr ⟨a :: l1, c, l2, by simp [hdec], ?_, EInt.blt_trans hlt h, ?_, haft⟩
        · rw [scanMinGo, if_pos h, heq]
        · intro x hx
          rcases List.mem_cons.1 hx with hx | hx
          · subst hx; exact hlt
          · exact hbef x hx
    · rcases ih v b with ⟨heq, hall⟩ | ⟨l1, c, l2, hdec, heq, hlt, hbef, haft⟩
      · refine Or.inl ⟨?_, ?_⟩
        · rw [scanMinGo, if_neg (by simp_all), heq]
        · intro x hx
          rcases List.mem_cons.1 hx with hx | hx
          · subst hx; simp_all
          · exact hall x hx
      · refine Or.inr ⟨a :: l1, c, l2, by simp [hdec], ?_, hlt, ?_, haft⟩
        · rw [scanMinGo, if_neg (by simp_all), heq]
        · intro x hx
          rcases List.mem_cons.1 hx with hx | hx
          · subst hx
            exact EInt.lt_of_lt_of_le hlt (by simp_all)
          · exact hbef x hx

/-- If no successor evaluation fails, the bucket game's exception-propagating
loop agrees with the pure maximizing loop. -/
theorem scanMaxGoM_eq {A : Type} (f : A → Option EInt) (g : A → EInt)
    {l : List A} (h : ∀ a ∈ l, f a = some (g a)) (v : EInt) (b : Option A) :
    scanMaxGoM f l v b = some (scanMaxGo g l v b) := by
  induction l generalizing v b with
  | nil => rfl
  | cons a t ih =>
    have ha := h a (List.mem_cons_self a t)
    by_cases hb : EInt.blt v (g a) = true
    · simp only [scanMaxGoM, scanMaxGo, ha, if_pos hb]
      exact ih (fun x hx => h x (List.mem_cons_of_mem a hx)) _ _
    · simp only [scanMaxGoM, scanMaxGo, ha,
        if_neg (show ¬EInt.blt v (g a) = true by simp_all)]
      exact ih (fun x hx => h x (List.mem_cons_of_mem a hx)) _ _

/-- Mirror of `scanMaxGoM_eq` for the spec-modelled minimizing loop. -/
theorem scanMinGoM_eq {A : Type} (f : A → Option EInt) (g : A → EInt)
    {l : List A} (h : ∀ a ∈ l, f a = some (g a)) (v : EInt) (b : Option A) :
    scanMinGoM f l v b = some (scanMinGo g l v b) := by
  induction l generalizing v b with
  | nil => rfl
  | cons a t ih =>
    have ha := h a (List.mem_cons_self a t)
    by_cases hb : EInt.blt (g a) v = true
    · simp only [scanMinGoM, scanMinGo, ha, if_pos hb]
      exact ih (fun x hx => h x (List.mem_cons_of_mem a hx)) _ _
    · simp only [scanMinGoM, scanMinGo, ha,
        if_neg (show ¬EInt.blt (g a) v = true by simp_all)]
      exact ih (fun x hx => h x (List.mem_cons_of_mem a hx)) _ _

/-- The value returned by the alpha-beta maximizing loop is the incoming
accumulator or one of the explored child evaluations. -/
theorem abMaxGo_fst_mem {A : Type} (f : A → EInt → EInt) (beta : EInt) :
    ∀ (l : List A) (v : EInt) (b : Option A) (alpha : EInt),
    (abMaxGo f beta l v b alpha).1 = v ∨
    ∃ a ∈ l, ∃ al, (abMaxGo f beta l v b alpha).1 = f a al := by
  intro l
  induction l with
  | nil => intro v b alpha; exact Or.inl rfl
  | cons a t ih =>
    intro v b alpha
    by_cases hup : EInt.blt v (f a alpha) = true
    · by_cases hb2 : EInt.blt (f a alpha) beta = true
      · rw [abMaxGo, if_pos hup, if_pos hb2]
        rcases ih (f a alpha) (some a) (EInt.max alpha (f a alpha)) with h | ⟨x, hx, al, h⟩
        · exact Or.inr ⟨a, List.mem_cons_self a t, alpha, h⟩
        · exact Or.inr ⟨x, List.mem_cons_of_mem a hx, al, h⟩
      · rw [abMaxGo, if_pos hup, if_neg (by simp_all)]
        exact Or.inr ⟨a, List.mem_cons_self a t, alpha, rfl⟩
    · rw [abMaxGo, if_neg (by simp_all)]
      by_cases hvb : EInt.blt v beta = true
      · rw [if_pos hvb]
        rcases ih v b alpha with h | ⟨x, hx, al, h⟩
        · exact Or.inl h
        · exact Or.inr ⟨x, List.mem_cons_of_mem a hx, al, h⟩
      · rw [if_neg (by simp_all)]; exact Or.inl rfl

/-- Mirror of `abMaxGo_fst_mem` for the minimizing loop. -/
theorem abMinGo_fst_mem {A : Type} (f : A → EInt → EInt) (alpha : EInt) :
    ∀ (l : List A) (v : EInt) (b : Option A) (beta : EInt),
    (abMinGo f alpha l v b beta).1 = v ∨
    ∃ a ∈ l, ∃ bt, (abMinGo f alpha l v b beta).1 = f a bt := by
  intro l
  induction l with
  | nil => intro v b beta; exact Or.inl rfl
  | cons a t ih =>
    intro v b beta
    by_cases hup : EInt.blt (f a beta) v = true
    · by_cases hb2 : EInt.blt alpha (f a beta) = true
      · rw [abMinGo, if_pos hup, if_pos hb2]
        rcases ih (f a beta) (some a) (EInt.min beta (f a beta)) with h | ⟨x, hx, bt, h⟩
        · exact Or.inr ⟨a, List.mem_cons_self a t, beta, h⟩
        · exact Or.inr ⟨x, List.mem_cons_of_mem a hx, bt, h⟩
      · rw [abMinGo, if_pos hup, if_neg (by simp_all)]
        exact Or.inr ⟨a, List.mem_cons_self a t, beta, rfl⟩
    · rw [abMinGo, if_neg (by simp_all)]
      by_cases hvb : EInt.blt alpha v = true
      · rw [if_pos hvb]
        rcases ih v b beta with h | ⟨x, hx, bt, h⟩
        · exact Or.inl h
        · exact Or.inr ⟨x, List.mem_cons_of_mem a hx, bt, h⟩
      · rw [if_neg (by simp_all)]; exact Or.inl rfl

/-- At the root window `(-inf, +inf)` the alpha-beta maximizing loop runs in
lockstep with the plain maximizing loop: every child call sees the window
`(v, +inf)` with `v` the running best, so each child value is either exact
(when it improves on `v`) or an upper bound on a value that cannot improve
on `v`; with all child values finite no beta cutoff ever fires.  Hence the
two loops return the same value AND the same best action. -/
theorem abMaxGo_root {A : Type} (f : A → EInt → EInt) (g : A → EInt) :
    ∀ (l : List A) (v : EInt) (b : Option A),
    (∀ a ∈ l, ∀ al, al ≠ EInt.pinf →
        (EInt.blt al (f a al) = true → f a al = g a) ∧
        (EInt.blt al (f a al) = false → EInt.blt (f a al) (g a) = false)) →
    (∀ a ∈ l, ∀ al, al ≠ EInt.pinf → f a al ≠ EInt.pinf) →
    v ≠ EInt.pinf →
    abMaxGo f EInt.pinf l v b v = scanMaxGo g l v b := by
  intro l
  induction l with
  | nil => intro v b _ _ _; rfl
  | cons a t ih =>
    intro v b hch hfin hv
    obtain ⟨cEX, cFL⟩ := hch a (List.mem_cons_self a t) v hv
    by_cases hup : EInt.blt v (f a v) = true
    · have hga : f a v = g a := cEX hup
      have hfa : f a v ≠ EInt.pinf := hfin a (List.mem_cons_self a t) v hv
      rw [abMaxGo, scanMaxGo, ← hga, if_pos hup, if_pos hup,
        if_pos (EInt.blt_pinf hfa), EInt.max_eq_right hup]
      exact ih (f a v) (some a)
        (fun x hx => hch x (List.mem_cons_of_mem a hx))
        (fun x hx => hfin x (List.mem_cons_of_mem a hx)) hfa
    · have hfl := cFL (by simp_all)
      have hvg : EInt.blt v (g a) = false := EInt.le_trans hfl (by simp_all)
      rw [abMaxGo, scanMaxGo,
        if_neg (show ¬EInt.blt v (f a v) = true by simp_all),
        if_pos (EInt.blt_pinf hv),
        if_neg (show ¬EInt.blt v (g a) = true by simp [hvg])]
      exact ih v b
        (fun x hx => hch x (List.mem_cons_of_mem a hx))
        (fun x hx => hfin x (List.mem_cons_of_mem a hx)) hv

/-- Fail-soft bounds for the alpha-beta maximizing loop.  Here `g a` is the
true (plain-minimax) value of child `a` and `f a al` its alpha-beta
evaluation under window `(al, beta)`; the hypothesis on the children is the
inductive fail-soft property of `_min_ab`.  The loop's alpha argument is
`EInt.max alpha0 v`, the source's running `alpha = max(alpha, v)` invariant.
Conclusions about the returned value `r`: it never drops below the incoming
accumulator; on a beta cutoff it is a lower bound on the true maximum; when
it fails low (at or under `alpha0`) it is an upper bound; and strictly
inside the window it is exactly the true maximum. -/
theorem abMaxGo_soft {A : Type} (f : A → EInt → EInt) (g : A → EInt) (beta : EInt) :
    ∀ (l : List A) (v : EInt) (b : Option A) (alpha0 r : EInt),
    EInt.blt alpha0 beta = true →
    EInt.blt v beta = true →
    (∀ a ∈ l, ∀ al, EInt.blt al beta = true →
        (EInt.blt al (f a al) = false → EInt.blt (f a al) (g a) = false) ∧
        (EInt.blt (f a al) beta = false → EInt.blt (g a) (f a al) = false) ∧
        (EInt.blt al (f a al) = true → EInt.blt (f a al) beta = true → f a al = g a)) →
    r = (abMaxGo f beta l v b (EInt.max alpha0 v)).1 →
    EInt.blt r v = false ∧
    (EInt.blt r beta = false → EInt.blt (gmax g l v) r = false) ∧
    (EInt.blt alpha0 r = false → EInt.blt r (gmax g l v) = false) ∧
    (EInt.blt alpha0 r = true → EInt.blt r beta = true → r = gmax g l v) := by
  intro l
  induction l with
  | nil =>
    intro v b alpha0 r halpha hv hch hr
    simp only [abMaxGo] at hr
    refine ⟨?_, ?_, ?_, ?_⟩
    · rw [hr]; exact EInt.blt_irrefl v
    · intro h; rw [hr] at h; exact absurd hv (by simp [h])
    · intro _; rw [hr]; exact EInt.blt_irrefl v
    · intro _ _; exact hr
  | cons a t ih =>
    intro v b alpha0 r halpha hv hch hr
    have hal : EInt.blt (EInt.max alpha0 v) beta = true := EInt.max_blt halpha hv
    obtain ⟨cFL, cFH, cEX⟩ := hch a (List.mem_cons_self a t) (EInt.max alpha0 v) hal
    have hcht : ∀ x ∈ t, ∀ al, EInt.blt al beta = true →
        (EInt.blt al (f x al) = false → EInt.blt (f x al) (g x) = false) ∧
        (EInt.blt (f x al) beta = false → EInt.blt (g x) (f x al) = false) ∧
        (EInt.blt al (f x al) = true → EInt.blt (f x al) beta = true → f x al = g x) :=
      fun x hx => hch x (List.mem_cons_of_mem a hx)
    by_cases hup : EInt.blt v (f a (EInt.max alpha0 v)) = true
    · by_cases hb2 : EInt.blt (f a (EInt.max alpha0 v)) beta = true
      · -- the child improved the running value and no beta cutoff fires
        rw [abMaxGo, if_pos hup, if_pos hb2, EInt.max_assoc,
          EInt.max_eq_right hup] at hr
        have ihc := ih (f a (EInt.max alpha0 v)) (some a) alpha0 r halpha hb2 hcht hr
        have hrv : EInt.blt r v = false :=
          EInt.blt_asymm (EInt.lt_of_lt_of_le hup ihc.1)
        by_cases hav2 : EInt.blt (EInt.max alpha0 v) (f a (EInt.max alpha0 v)) = true
        · -- the child value is exact
          have hga := cEX hav2 hb2
          have hT : gmax g (a :: t) v = gmax g t (f a (EInt.max alpha0 v)) := by
            rw [gmax_cons, ← hga, EInt.max_eq_right hup]
          exact ⟨hrv, by rw [hT]; exact ihc.2.1, by rw [hT]; exact ihc.2.2.1,
            by rw [hT]; exact ihc.2.2.2⟩
        · -- the child failed low: its value may overshoot, but stays at or
          -- under alpha0, so it cannot be the final value inside the window
          have hv2al : EInt.blt (EInt.max alpha0 v) (f a (EInt.max alpha0 v)) = false :=
            Bool.eq_false_iff.mpr hav2
          have hgav2 : EInt.blt (f a (EInt.max alpha0 v)) (g a) = false := cFL hv2al
          have hv2a0 : EInt.blt alpha0 (f a (EInt.max alpha0 v)) = false :=
            EInt.le_alpha_of_max hv2al hup
          have hvv2 : EInt.blt (f a (EInt.max alpha0 v)) v = false := EInt.blt_asymm hup
          have hmaxvga : EInt.blt (f a (EInt.max alpha0 v)) (EInt.max v (g a)) = false :=
            EInt.max_le hvv2 hgav2
          refine ⟨hrv, ?_, ?_, ?_⟩
          · intro hfh
            have h2 := ihc.2.1 hfh
            have ha0r : EInt.blt alpha0 r = true := EInt.lt_of_lt_of_le halpha hfh
            have hv2r : EInt.blt (f a (EInt.max alpha0 v)) r = true :=
              EInt.lt_of_le_of_lt hv2a0 ha0r
            have hS : EInt.blt (gmax g t EInt.ninf) r = false := by
              rw [gmax_init] at h2
              exact EInt.max_le_elim h2 hv2r
            rw [gmax_cons, gmax_init]
            exact EInt.le_trans hS (EInt.le_max_right _ _)
          · intro hfl
            have h3 := ihc.2.2.1 hfl
            have hmono := gmax_mono g t hmaxvga
            rw [gmax_cons]
            exact EInt.le_trans hmono h3
          · intro h1 h2
            have h4 := ihc.2.2.2 h1 h2
            have hv2r : EInt.blt (f a (EInt.max alpha0 v)) r = true :=
              EInt.lt_of_le_of_lt hv2a0 h1
            have hrS : r = gmax g t EInt.ninf := by
              rw [gmax_init] at h4
              exact EInt.eq_max_elim h4 hv2r
            have hlt : EInt.blt (EInt.max v (g a)) (gmax g t EInt.ninf) = true := by
              have hx := EInt.lt_of_le_of_lt hmaxvga hv2r
              rwa [hrS] at hx
            rw [gmax_cons, gmax_init, EInt.max_eq_right hlt]
            exact hrS
      · -- beta cutoff: the loop stops and returns the child value
        rw [abMaxGo, if_pos hup, if_neg hb2] at hr
        have hrv2 : r = f a (EInt.max alpha0 v) := hr
        refine ⟨?_, ?_, ?_, ?_⟩
        · rw [hrv2]; exact EInt.blt_asymm hup
        · intro _
          have hgeq := cFH (Bool.eq_false_iff.mpr hb2)
          rw [hrv2]
          exact EInt.le_trans hgeq (le_gmax_mem g (List.mem_cons_self a t) v)
        · intro hfl
          have hcon : EInt.blt alpha0 r = true := by
            rw [hrv2]
            exact EInt.lt_of_lt_of_le halpha (Bool.eq_false_iff.mpr hb2)
          exact absurd hcon (by simp [hfl])
        · intro _ hcon
          rw [hrv2] at hcon
          exact absurd hcon hb2
    · -- the child did not improve the running value: it failed low, so its
      -- true value is also at or under the running value
      rw [abMaxGo, if_neg hup, if_pos hv] at hr
      have hv2v : EInt.blt v (f a (EInt.max alpha0 v)) = false :=
        Bool.eq_false_iff.mpr hup
      have hv2al : EInt.blt (EInt.max alpha0 v) (f a (EInt.max alpha0 v)) = false :=
        EInt.le_trans hv2v (EInt.le_max_right alpha0 v)
      have hgav2 : EInt.blt (f a (EInt.max alpha0 v)) (g a) = false := cFL hv2al
      have hgv : EInt.blt v (g a) = false := EInt.le_trans hgav2 hv2v
      have hT : gmax g (a :: t) v = gmax g t v := by
        rw [gmax_cons, EInt.max_eq_left hgv]
      have ihc := ih v b alpha0 r halpha hv hcht hr
      exact ⟨ihc.1, by rw [hT]; exact ihc.2.1, by rw [hT]; exact ihc.2.2.1,
        by rw [hT]; exact ihc.2.2.2⟩

/-- Mirror of `abMaxGo_soft` for the alpha-beta minimizing loop: fixed
`alpha`, running `beta = min(beta, v)`, `v <= alpha` cutoff. -/
theorem abMinGo_soft {A : Type} (f : A → EInt → EInt) (g : A → EInt) (alpha : EInt) :
    ∀ (l : List A) (v : EInt) (b : Option A) (beta0 r : EInt),
    EInt.blt alpha beta0 = true →
    EInt.blt alpha v = true →
    (∀ a ∈ l, ∀ bt, EInt.blt alpha bt = true →
        (EInt.blt alpha (f a bt) = false → EInt.blt (f a bt) (g a) = false) ∧
        (EInt.blt (f a bt) bt = false → EInt.blt (g a) (f a bt) = false) ∧
        (EInt.blt alpha (f a bt) = true → EInt.blt (f a bt) bt = true → f a bt = g a)) →
    r = (abMinGo f alpha l v b (EInt.min beta0 v)).1 →
    EInt.blt v r = false ∧
    (EInt.blt alpha r = false → EInt.blt r (gmin g l v) = false) ∧
    (EInt.blt r beta0 = false → EInt.blt (gmin g l v) r = false) ∧
    (EInt.blt alpha r = true → EInt.blt r beta0 = true → r = gmin g l v) := by
  intro l
  induction l with
  | nil =>
    intro v b beta0 r hbeta hv hch hr
    simp only [abMinGo] at hr
    refine ⟨?_, ?_, ?_, ?_⟩
    · rw [hr]; exact EInt.blt_irrefl v
    · intro h; rw [hr] at h; exact absurd hv (by simp [h])
    · intro _; rw [hr]; exact EInt.blt_irrefl v
    · intro _ _; exact hr
  | cons a t ih =>
    intro v b beta0 r hbeta hv hch hr
    have hbt : EInt.blt alpha (EInt.min beta0 v) = true := EInt.blt_min hbeta hv
    obtain ⟨cFL, cFH, cEX⟩ := hch a (List.mem_cons_self a t) (EInt.min beta0 v) hbt
    have hcht : ∀ x ∈ t, ∀ bt, EInt.blt alpha bt = true →
        (EInt.blt alpha (f x bt) = false → EInt.blt (f x bt) (g x) = false) ∧
        (EInt.blt (f x bt) bt = false → EInt.blt (g x) (f x bt) = false) ∧
        (EInt.blt alpha (f x bt) = true → EInt.blt (f x bt) bt = true → f x bt = g x) :=
      fun x hx => hch x (List.mem_cons_of_mem a hx)
    by_cases hup : EInt.blt (f a (EInt.min beta0 v)) v = true
    · by_cases hb2 : EInt.blt alpha (f a (EInt.min beta0 v)) = true
      · -- the child lowered the running value and no alpha cutoff fires
        rw [abMinGo, if_pos hup, if_pos hb2, EInt.min_assoc,
          EInt.min_eq_right hup] at hr
        have ihc := ih (f a (EInt.min beta0 v)) (some a) beta0 r hbeta hb2 hcht hr
        have hrv : EInt.blt v r = false :=
          EInt.blt_asymm (EInt.lt_of_le_of_lt ihc.1 hup)
        by_cases hav2 : EInt.blt (f a (EInt.min beta0 v)) (EInt.min beta0 v) = true
        · -- the child value is exact
          have hga := cEX hb2 hav2
          have hT : gmin g (a :: t) v = gmin g t (f a (EInt.min beta0 v)) := by
            rw [gmin_cons, ← hga, EInt.min_eq_right hup]
          exact ⟨hrv, by rw [hT]; exact ihc.2.1, by rw [hT]; exact ihc.2.2.1,
            by rw [hT]; exact ihc.2.2.2⟩
        · -- the child failed high: its value may undershoot, but stays at or
          -- above beta0, so it cannot be the final value inside the window
          have hv2bt : EInt.blt (f a (EInt.min beta0 v)) (EInt.min beta0 v) = false :=
            Bool.eq_false_iff.mpr hav2
          have hgev2 : EInt.blt (g a) (f a (EInt.min beta0 v)) = false := cFH hv2bt
          have hv2b0 : EInt.blt (f a (EInt.min beta0 v)) beta0 = false :=
            EInt.ge_beta_of_min hv2bt hup
          have hvv2 : EInt.blt v (f a (EInt.min beta0 v)) = false := EInt.blt_asymm hup
          have hminvga : EInt.blt (EInt.min v (g a)) (f a (EInt.min beta0 v)) = false :=
            EInt.le_min hvv2 hgev2
          refine ⟨hrv, ?_, ?_, ?_⟩
          · intro hfl
            have h2 := ihc.2.1 hfl
            have harb : EInt.blt r beta0 = true := EInt.lt_of_le_of_lt hfl hbeta
            have hrv2 : EInt.blt r (f a (EInt.min beta0 v)) = true :=
              EInt.lt_of_lt_of_le harb hv2b0
            have hS : EInt.blt r (gmin g t EInt.pinf) = false := by
              rw [gmin_init] at h2
              exact EInt.min_le_elim h2 hrv2
            rw [gmin_cons, gmin_init]
            exact EInt.le_trans (EInt.min_le_right _ _) hS
          · intro hfh
            have h3 := ihc.2.2.1 hfh
            have hmono := gmin_mono g t hminvga
            rw [gmin_cons]
            exact EInt.le_trans h3 hmono
          · intro h1 h2
            have h4 := ihc.2.2.2 h1 h2
            have hrv2 : EInt.blt r (f a (EInt.min beta0 v)) = true :=
              EInt.lt_of_lt_of_le h2 hv2b0
            have hrS : r = gmin g t EInt.pinf := by
              rw [gmin_init] at h4
              exact EInt.eq_min_elim h4 hrv2
            have hlt : EInt.blt (gmin g t EInt.pinf) (EInt.min v (g a)) = true := by
              have hx := EInt.lt_of_lt_of_le hrv2 hminvga
              rwa [hrS] at hx
            rw [gmin_cons, gmin_init, EInt.min_eq_right hlt]
            exact hrS
      · -- alpha cutoff: the loop stops and returns the child value
        rw [abMinGo, if_pos hup, if_neg hb2] at hr
        have hrv2 : r = f a (EInt.min beta0 v) := hr
        refine ⟨?_, ?_, ?_, ?_⟩
        · rw [hrv2]; exact EInt.blt_asymm hup
        · intro _
          have hgle := cFL (Bool.eq_false_iff.mpr hb2)
          rw [hrv2]
          exact EInt.le_trans (gmin_le_mem g (List.mem_cons_self a t) v) hgle
        · intro hfh
          have hcon : EInt.blt r beta0 = true := by
            rw [hrv2]
            exact EInt.lt_of_le_of_lt (Bool.eq_false_iff.mpr hb2) hbeta
          exact absurd hcon (by simp [hfh])
        · intro hcon _
          rw [hrv2] at hcon
          exact absurd hcon hb2
    · -- the child did not lower the running value: it failed high, so its
      -- true value is also at or above the running value
      rw [abMinGo, if_neg hup, if_pos hv] at hr
      have hv2v : EInt.blt (f a (EInt.min beta0 v)) v = false :=
        Bool.eq_false_iff.mpr hup
      have hv2bt : EInt.blt (f a (EInt.min beta0 v)) (EInt.min beta0 v) = false :=
        EInt.le_trans (EInt.min_le_right beta0 v) hv2v
      have hgev2 : EInt.blt (g a) (f a (EInt.min beta0 v)) = false := cFH hv2bt
      have hgv : EInt.blt (g a) v = false := EInt.le_trans hv2v hgev2
      have hT : gmin g (a :: t) v = gmin g t v := by
        rw [gmin_cons, EInt.min_eq_left hgv]
      have ihc := ih v b beta0 r hbeta hv hcht hr
      exact ⟨ihc.1, by rw [hT]; exact ihc.2.1, by rw [hT]; exact ihc.2.2.1,
        by rw [hT]; exact ihc.2.2.2⟩

/-- Reusable list fact: flipping one satisfied element of the predicate to
false (leaving all other elements alone) strictly shrinks the filter. -/
theorem filter_length_lt {A : Type} :
    ∀ (l : List A) (p q : A → Bool) (a : A), a ∈ l → p a = true → q a = false →
    (∀ x, x ≠ a → q x = p x) → l.Nodup →
    (l.filter q).length < (l.filter p).length := by
  intro l
  induction l with
  | nil => intro p q a h; cases h
  | cons x t ih =>
    intro p q a hmem hpa hqa hother hnd
    rcases List.mem_cons.1 hmem with heq | hmem2
    · have hpx : p x = true := heq ▸ hpa
      have hqx : q x = false := heq ▸ hqa
      have hat : x ∉ t := (List.nodup_cons.1 hnd).1
      have hfq : t.filter q = t.filter p :=
        List.filter_congr (fun y hy => hother y (fun hc => hat (by
          rw [← heq, ← hc]; exact hy)))
      rw [List.filter_cons, List.filter_cons, if_pos hpx,
        if_neg (by simp [hqx]), hfq]
      simp
    · have hxa : x ≠ a := fun hc => (List.nodup_cons.1 hnd).1 (hc ▸ hmem2)
      have hq : q x = p x := hother x hxa
      have ihr := ih p q a hmem2 hpa hqa hother (List.nodup_cons.1 hnd).2
      rw [List.filter_cons, List.filter_cons, hq]
      by_cases hpx : p x = true
      · rw [if_pos hpx, if_pos hpx]
        simpa using ihr
      · rw [if_neg hpx, if_neg hpx]
        exact ihr

namespace TicTacToe

theorem allCoords_nodup : allCoords.Nodup := by decide

theorem mem_allCoords (a : Action) : a ∈ allCoords := by
  revert a; decide

/-- Filling an empty cell removes exactly that cell from the legal actions. -/
theorem actions_result_length (s : State) {a : Action} (h : a ∈ actions s) :
    (actions (result s a)).length < (actions s).length := by
  have hmem := (List.mem_filter.1 h).1
  have hpa := (List.mem_filter.1 h).2
  refine filter_length_lt allCoords _ _ a hmem hpa ?_ ?_ allCoords_nodup
  · show ((result s a).2 a.1 a.2).isNone = false
    unfold result
    simp
  · intro x hx
    show ((result s a).2 x.1 x.2).isNone = (s.2 x.1 x.2).isNone
    have hcell : (result s a).2 x.1 x.2 = s.2 x.1 x.2 := by
      show (if x.1 = a.1 ∧ x.2 = a.2 then some (to_move s) else s.2 x.1 x.2)
          = s.2 x.1 x.2
      rw [if_neg]
      intro hc
      exact hx (Prod.ext hc.1 hc.2)
    rw [hcell]

/-- A non-terminal state always has at least one legal action: otherwise the
board would be full and `is_terminal` would hold. -/
theorem actions_ne_nil_of_not_terminal {s : State} (h : is_terminal s = false) :
    actions s ≠ [] := by
  unfold is_terminal at h
  have h2 : allCoords.all (fun rc => (s.2 rc.1 rc.2).isSome) = false :=
    (Bool.or_eq_false_iff.mp h).2
  have h3 : ¬∀ rc ∈ allCoords, (s.2 rc.1 rc.2).isSome = true := by
    intro hall
    rw [List.all_eq_true.mpr hall] at h2
    cases h2
  push_neg at h3
  obtain ⟨rc, hrc, hsome⟩ := h3
  have hnone : (s.2 rc.1 rc.2).isNone = true := by
    cases hv : s.2 rc.1 rc.2 with
    | none => rfl
    | some p => rw [hv] at hsome; exact absurd rfl hsome
  exact List.ne_nil_of_mem (List.mem_filter.2 ⟨hrc, hnone⟩)

theorem _max_plain_term {fuel : Nat} {s : State} {player : Player}
    (h : is_terminal s = true) :
    _max_plain (fuel + 1) s player = (.int (utility s player), none) := by
  rw [_max_plain, if_pos h]

theorem _min_plain_term {fuel : Nat} {s : State} {player : Player}
    (h : is_terminal s = true) :
    _min_plain (fuel + 1) s player = (.int (utility s player), none) := by
  rw [_min_plain, if_pos h]

theorem _max_plain_succ {fuel : Nat} {s : State} {player : Player}
    (h : is_terminal s = false) :
    _max_plain (fuel + 1) s player =
      scanMaxGo (fun a => ( _min_plain fuel (result s a) player).1)
        (actions s) .ninf none := by
  rw [_max_plain, if_neg (by simp [h])]

theorem _min_plain_succ {fuel : Nat} {s : State} {player : Player}
    (h : is_terminal s = false) :
    _min_plain (fuel + 1) s player =
      scanMinGo (fun a => ( _max_plain fuel (result s a) player).1)
        (actions s) .pinf none := by
  rw [_min_plain, if_neg (by simp [h])]

theorem _max_ab_term {fuel : Nat} {s : State} {player : Player}
    {alpha beta : EInt} (h : is_terminal s = true) :
    _max_ab (fuel + 1) s player alpha beta = (.int (utility s player), none) := by
  rw [_max_ab, if_pos h]

theorem _min_ab_term {fuel : Nat} {s : State} {player : Player}
    {alpha beta : EInt} (h : is_terminal s = true) :
    _min_ab (fuel + 1) s player alpha beta = (.int (utility s player), none) := by
  rw [_min_ab, if_pos h]

theorem _max_ab_succ {fuel : Nat} {s : State} {player : Player}
    {alpha beta : EInt} (h : is_terminal s = false) :
    _max_ab (fuel + 1) s player alpha beta =
      abMaxGo (fun a al => ( _min_ab fuel (result s a) player al beta).1) beta
        (actions s) .ninf none alpha := by
  rw [_max_ab, if_neg (by simp [h])]

theorem _min_ab_succ {fuel : Nat} {s : State} {player : Player}
    {alpha beta : EInt} (h : is_terminal s = false) :
    _min_ab (fuel + 1) s player alpha beta =
      abMinGo (fun a bt => ( _max_ab fuel (result s a) player alpha bt).1) alpha
        (actions s) .pinf none beta := by
  rw [_min_ab, if_neg (by simp [h])]

end TicTacToe

/-- Starting from `-inf`, the alpha-beta maximizing loop over a non-empty
list of integer-valued children returns an integer. -/
theorem abMaxGo_fst_finite {A : Type} (f : A → EInt → EInt) (beta : EInt)
    {l : List A} (hne : l ≠ [])
    (hfin : ∀ x ∈ l, ∀ al, ∃ k, f x al = .int k) (b : Option A) (alpha : EInt) :
    ∃ k, (abMaxGo f beta l .ninf b alpha).1 = .int k := by
  cases l with
  | nil => exact absurd rfl hne
  | cons a t =>
    obtain ⟨k0, hk0⟩ := hfin a (List.mem_cons_self a t) alpha
    have hup : EInt.blt .ninf (f a alpha) = true := by rw [hk0]; rfl
    rw [abMaxGo, if_pos hup]
    by_cases hbb : EInt.blt (f a alpha) beta = true
    · rw [if_pos hbb]
      rcases abMaxGo_fst_mem f beta t (f a alpha) (some a)
          (EInt.max alpha (f a alpha)) with h | ⟨x, hx, al, h⟩
      · rw [h]; exact ⟨k0, hk0⟩
      · obtain ⟨k, hk⟩ := hfin x (List.mem_cons_of_mem a hx) al
        rw [h]; exact ⟨k, hk⟩
    · rw [if_neg hbb]
      exact ⟨k0, hk0⟩

/-- Mirror of `abMaxGo_fst_finite` for the minimizing loop from `+inf`. -/
theorem abMinGo_fst_finite {A : Type} (f : A → EInt → EInt) (alpha : EInt)
    {l : List A} (hne : l ≠ [])
    (hfin : ∀ x ∈ l, ∀ bt, ∃ k, f x bt = .int k) (b : Option A) (beta : EInt) :
    ∃ k, (abMinGo f alpha l .pinf b beta).1 = .int k := by
  cases l with
  | nil => exact absurd rfl hne
  | cons a t =>
    obtain ⟨k0, hk0⟩ := hfin a (List.mem_cons_self a t) beta
    have hup : EInt.blt (f a beta) .pinf = true := by rw [hk0]; rfl
    rw [abMinGo, if_pos hup]
    by_cases hbb : EInt.blt alpha (f a beta) = true
    · rw [if_pos hbb]
      rcases abMinGo_fst_mem f alpha t (f a beta) (some a)
          (EInt.min beta (f a beta)) with h | ⟨x, hx, bt, h⟩
      · rw [h]; exact ⟨k0, hk0⟩
      · obtain ⟨k, hk⟩ := hfin x (List.mem_cons_of_mem a hx) bt
        rw [h]; exact ⟨k, hk⟩
    · rw [if_neg hbb]
      exact ⟨k0, hk0⟩

namespace TicTacToe

/-- Each successor of a state with fuel to spare leaves fuel for its subtree:
the empty-cell count drops by one per move. -/
theorem child_fuel {s : State} {n : Nat} (h : (actions s).length < n + 1) :
    ∀ a ∈ actions s, (actions (result s a)).length < n := fun a ha =>
  Nat.lt_of_lt_of_le (actions_result_length s ha) (Nat.lt_succ_iff.mp h)

/-- With enough fuel both plain value functions return integers (the game
tree bottoms out at terminal states whose utility is an integer). -/
theorem plain_finite : ∀ (fuel : Nat) (s : State) (player : Player),
    (actions s).length < fuel →
    (∃ k, (_max_plain fuel s player).1 = .int k) ∧
    (∃ k, (_min_plain fuel s player).1 = .int k) := by
  intro fuel
  induction fuel with
  | zero => intro s p h; exact absurd h (Nat.not_lt_zero _)
  | succ n ih =>
    intro s p h
    by_cases ht : is_terminal s = true
    · exact ⟨⟨utility s p, by rw [_max_plain_term ht]⟩,
        ⟨utility s p, by rw [_min_plain_term ht]⟩⟩
    · have ht2 : is_terminal s = false := Bool.eq_false_iff.mpr ht
      have hne := actions_ne_nil_of_not_terminal ht2
      have hch := child_fuel h
      constructor
      · rw [_max_plain_succ ht2]
        rcases scanMaxGo_spec (fun a => ( _min_plain n (result s a) p).1)
            (actions s) .ninf none with ⟨heq, hall⟩ | ⟨l1, a, l2, hdec, heq, hlt, h4, h5⟩
        · obtain ⟨a, ha⟩ := List.exists_mem_of_ne_nil _ hne
          obtain ⟨k, hk⟩ := (ih (result s a) p (hch a ha)).2
          have hx := hall a ha
          rw [hk] at hx
          simp [EInt.blt] at hx
        · have hmem : a ∈ actions s := by
            rw [hdec]; exact List.mem_append.2 (Or.inr (List.mem_cons_self a l2))
          obtain ⟨k, hk⟩ := (ih (result s a) p (hch a hmem)).2
          rw [heq]
          exact ⟨k, hk⟩
      · rw [_min_plain_succ ht2]
        rcases scanMinGo_spec (fun a => ( _max_plain n (result s a) p).1)
            (actions s) .pinf none with ⟨heq, hall⟩ | ⟨l1, a, l2, hdec, heq, hlt, h4, h5⟩
        · obtain ⟨a, ha⟩ := List.exists_mem_of_ne_nil _ hne
          obtain ⟨k, hk⟩ := (ih (result s a) p (hch a ha)).1
          have hx := hall a ha
          rw [hk] at hx
          simp [EInt.blt] at hx
        · have hmem : a ∈ actions s := by
            rw [hdec]; exact List.mem_append.2 (Or.inr (List.mem_cons_self a l2))
          obtain ⟨k, hk⟩ := (ih (result s a) p (hch a hmem)).1
          rw [heq]
          exact ⟨k, hk⟩

/-- With enough fuel both alpha-beta value functions return integers, for
every window. -/
theorem ab_finite : ∀ (fuel : Nat) (s : State) (player : Player)
    (alpha beta : EInt), (actions s).length < fuel →
    (∃ k, (_max_ab fuel s player alpha beta).1 = .int k) ∧
    (∃ k, (_min_ab fuel s player alpha beta).1 = .int k) := by
  intro fuel
  induction fuel with
  | zero => intro s p alpha beta h; exact absurd h (Nat.not_lt_zero _)
  | succ n ih =>
    intro s p alpha beta h
    by_cases ht : is_terminal s = true
    · exact ⟨⟨utility s p, by rw [_max_ab_term ht]⟩,
        ⟨utility s p, by rw [_min_ab_term ht]⟩⟩
    · have ht2 : is_terminal s = false := Bool.eq_false_iff.mpr ht
      have hne := actions_ne_nil_of_not_terminal ht2
      have hch := child_fuel h
      constructor
      · rw [_max_ab_succ ht2]
        exact abMaxGo_fst_finite _ beta hne
          (fun x hx al => (ih (result s x) p al beta (hch x hx)).2) none alpha
      · rw [_min_ab_succ ht2]
        exact abMinGo_fst_finite _ alpha hne
          (fun x hx bt => (ih (result s x) p alpha bt (hch x hx)).1) none beta

/-- Fail-soft soundness of the alpha-beta functions against the plain
minimax functions, for every window `alpha < beta`: a value at or under
`alpha` is an upper bound on the plain value, a value at or above `beta` is
a lower bound, and a value strictly inside the window is exactly the plain
value. -/
theorem ab_soft : ∀ (fuel : Nat) (s : State) (player : Player)
    (alpha beta : EInt), (actions s).length < fuel →
    EInt.blt alpha beta = true →
    ((EInt.blt alpha (_max_ab fuel s player alpha beta).1 = false →
        EInt.blt (_max_ab fuel s player alpha beta).1
          (_max_plain fuel s player).1 = false) ∧
     (EInt.blt (_max_ab fuel s player alpha beta).1 beta = false →
        EInt.blt (_max_plain fuel s player).1
          (_max_ab fuel s player alpha beta).1 = false) ∧
     (EInt.blt alpha (_max_ab fuel s player alpha beta).1 = true →
        EInt.blt (_max_ab fuel s player alpha beta).1 beta = true →
        (_max_ab fuel s player alpha beta).1 = (_max_plain fuel s player).1)) ∧
    ((EInt.blt alpha (_min_ab fuel s player alpha beta).1 = false →
        EInt.blt (_min_ab fuel s player alpha beta).1
          (_min_plain fuel s player).1 = false) ∧
     (EInt.blt (_min_ab fuel s player alpha beta).1 beta = false →
        EInt.blt (_min_plain fuel s player).1
          (_min_ab fuel s player alpha beta).1 = false) ∧
     (EInt.blt alpha (_min_ab fuel s player alpha beta).1 = true →
        EInt.blt (_min_ab fuel s player alpha beta).1 beta = true →
        (_min_ab fuel s player alpha beta).1 = (_min_plain fuel s player).1)) := by
  intro fuel
  induction fuel with
  | zero => intro s p alpha beta h _; exact absurd h (Nat.not_lt_zero _)
  | succ n ih =>
    intro s p alpha beta h hab
    by_cases ht : is_terminal s = true
    · rw [_max_ab_term ht, _min_ab_term ht, _max_plain_term ht, _min_plain_term ht]
      exact ⟨⟨fun _ => EInt.blt_irrefl _, fun _ => EInt.blt_irrefl _, fun _ _ => rfl⟩,
        ⟨fun _ => EInt.blt_irrefl _, fun _ => EInt.blt_irrefl _, fun _ _ => rfl⟩⟩
    · have ht2 : is_terminal s = false := Bool.eq_false_iff.mpr ht
      have hch := child_fuel h
      constructor
      · -- maximizing node
        have hpleq : (_max_plain (n + 1) s p).1 =
            gmax (fun a => ( _min_plain n (result s a) p).1) (actions s) .ninf := by
          rw [_max_plain_succ ht2, scanMaxGo_fst]
        have hsoft := abMaxGo_soft
          (fun a al => ( _min_ab n (result s a) p al beta).1)
          (fun a => ( _min_plain n (result s a) p).1) beta (actions s) .ninf none
          alpha ((_max_ab (n + 1) s p alpha beta).1) hab
          (EInt.ninf_blt (EInt.ne_ninf_of_blt hab))
          (fun a ha al hal => (ih (result s a) p al beta (hch a ha) hal).2)
          (by rw [EInt.max_ninf_right, _max_ab_succ ht2])
        refine ⟨fun hx => ?_, fun hx => ?_, fun hx hy => ?_⟩
        · rw [hpleq]; exact hsoft.2.2.1 hx
        · rw [hpleq]; exact hsoft.2.1 hx
        · rw [hpleq]; exact hsoft.2.2.2 hx hy
      · -- minimizing node
        have hpleq : (_min_plain (n + 1) s p).1 =
            gmin (fun a => ( _max_plain n (result s a) p).1) (actions s) .pinf := by
          rw [_min_plain_succ ht2, scanMinGo_fst]
        have hsoft := abMinGo_soft
          (fun a bt => ( _max_ab n (result s a) p alpha bt).1)
          (fun a => ( _max_plain n (result s a) p).1) alpha (actions s) .pinf none
          beta ((_min_ab (n + 1) s p alpha beta).1) hab
          (EInt.blt_pinf (EInt.ne_pinf_of_blt hab))
          (fun a ha bt hbt => (ih (result s a) p alpha bt (hch a ha) hbt).1)
          (by rw [EInt.min_pinf_right, _min_ab_succ ht2])
        refine ⟨fun hx => ?_, fun hx => ?_, fun hx hy => ?_⟩
        · rw [hpleq]; exact hsoft.2.1 hx
        · rw [hpleq]; exact hsoft.2.2.1 hx
        · rw [hpleq]; exact hsoft.2.2.2 hx hy

/-- The heart of the equivalence: at the root window `(-inf, +inf)` the
alpha-beta maximizer returns exactly the plain-minimax pair — the same
value and the same (first-argmax) action. -/
theorem ab_plain_root : ∀ (fuel : Nat) (s : State) (player : Player),
    (actions s).length < fuel →
    _max_ab fuel s player .ninf .pinf = _max_plain fuel s player := by
  intro fuel s p h
  cases fuel with
  | zero => exact absurd h (Nat.not_lt_zero _)
  | succ n =>
    by_cases ht : is_terminal s = true
    · rw [_max_ab_term ht, _max_plain_term ht]
    · have ht2 : is_terminal s = false := Bool.eq_false_iff.mpr ht
      have hch := child_fuel h
      rw [_max_ab_succ ht2, _max_plain_succ ht2]
      apply abMaxGo_root
      · intro a ha al hal
        have halp : EInt.blt al .pinf = true := EInt.blt_pinf hal
        have hmin := (ab_soft n (result s a) p al .pinf (hch a ha) halp).2
        constructor
        · intro hlt
          obtain ⟨k, hk⟩ := (ab_finite n (result s a) p al .pinf (hch a ha)).2
          exact hmin.2.2 hlt (by rw [hk]; rfl)
        · intro hle
          exact hmin.1 hle
      · intro a ha al hal
        obtain ⟨k, hk⟩ := (ab_finite n (result s a) p al .pinf (hch a ha)).2
        rw [hk]; simp
      · simp

end TicTacToe

/-- If the maximizing loop (from `-inf`, no incumbent) returns `(v, some a)`,
then `a` is the FIRST element achieving `v`: every earlier element is
strictly below `v` and no later element exceeds `v` (so a later equal value
never replaces the choice). -/
theorem scanMax_first_argmax {A : Type} (f : A → EInt) (l : List A) {v : EInt}
    {a : A} (h : scanMaxGo f l .ninf none = (v, some a)) :
    ∃ l1 l2, l = l1 ++ a :: l2 ∧ f a = v ∧
      (∀ x ∈ l1, EInt.blt (f x) v = true) ∧
      (∀ x ∈ l2, EInt.blt v (f x) = false) := by
  rcases scanMaxGo_spec f l .ninf none with ⟨heq, _⟩ |
    ⟨l1, c, l2, hdec, heq, _, hbef, haft⟩
  · rw [heq] at h
    simp at h
  · rw [heq] at h
    have hfc : f c = v := congrArg Prod.fst h
    have hca : c = a := by
      have := congrArg Prod.snd h
      simpa using this
    subst hca
    exact ⟨l1, l2, hdec, hfc, fun x hx => hfc ▸ hbef x hx,
      fun x hx => hfc ▸ haft x hx⟩

/-- Mirror of `scanMax_first_argmax` for the minimizing loop. -/
theorem scanMin_first_argmin {A : Type} (f : A → EInt) (l : List A) {v : EInt}
    {a : A} (h : scanMinGo f l .pinf none = (v, some a)) :
    ∃ l1 l2, l = l1 ++ a :: l2 ∧ f a = v ∧
      (∀ x ∈ l1, EInt.blt v (f x) = true) ∧
      (∀ x ∈ l2, EInt.blt (f x) v = false) := by
  rcases scanMinGo_spec f l .pinf none with ⟨heq, _⟩ |
    ⟨l1, c, l2, hdec, heq, _, hbef, haft⟩
  · rw [heq] at h
    simp at h
  · rw [heq] at h
    have hfc : f c = v := congrArg Prod.fst h
    have hca : c = a := by
      have := congrArg Prod.snd h
      simpa using this
    subst hca
    exact ⟨l1, l2, hdec, hfc, fun x hx => hfc ▸ hbef x hx,
      fun x hx => hfc ▸ haft x hx⟩

namespace Halving

theorem max_value_term {fuel : Nat} {s : State} {player : Fin 2}
    (h : is_terminal s = true) :
    max_value (fuel + 1) s player = (.int (utility s player), none) := by
  rw [max_value, if_pos h]

theorem min_value_term {fuel : Nat} {s : State} {player : Fin 2}
    (h : is_terminal s = true) :
    min_value (fuel + 1) s player = (.int (utility s player), none) := by
  rw [min_value, if_pos h]

theorem max_value_succ {fuel : Nat} {s : State} {player : Fin 2}
    (h : is_terminal s = false) :
    max_value (fuel + 1) s player =
      scanMaxGo (fun a => (min_value fuel (result s a) player).1)
        (actions s) .ninf none := by
  rw [max_value, if_neg (by simp [h])]

theorem min_value_succ {fuel : Nat} {s : State} {player : Fin 2}
    (h : is_terminal s = false) :
    min_value (fuel + 1) s player =
      scanMinGo (fun a => (max_value fuel (result s a) player).1)
        (actions s) .pinf none := by
  rw [min_value, if_neg (by simp [h])]

/-- Turn alternation in the halving game. -/
theorem halving_to_move_result (s : State) (a : Action) :
    to_move (result s a) = to_move s + 1 := by
  unfold result
  by_cases h : a = "--" <;> simp [h, to_move]

/-- Zero-sum utilities in the halving game. -/
theorem halving_utility_zero_sum (s : State) (p : Fin 2) (ht : is_terminal s = true) :
    utility s p = -utility s (p + 1) := by
  rcases s with ⟨sp, n⟩
  unfold utility to_move
  fin_cases sp <;> fin_cases p <;> simp <;> rfl

end Halving

namespace Bucket

theorem bucket_max_value_term {fuel : Nat} {s : State} {player : Fin 2}
    (h : is_terminal s = true) :
    max_value (fuel + 1) s player =
      (utility s player).map (fun u => (.int u, none)) := by
  rw [max_value, if_pos h]

/-- Turn alternation in the bucket game. -/
theorem bucket_to_move_result (s : State) (a : Action) :
    to_move (result s a) = to_move s + 1 := by
  cases a <;> rfl

/-- Zero-sum utilities in the bucket game, on the `Option` carrying the
possible assertion failure: whenever one player's utility is defined, the
opponent's is its negation. -/
theorem bucket_utility_zero_sum (s : State) (p : Fin 2) (ht : is_terminal s = true) :
    utility s (p + 1) = (utility s p).map (fun n => -n) := by
  rcases s with ⟨sp, l⟩
  cases l with
  | nil => rfl
  | cons b t =>
    cases t with
    | cons c t2 => cases b <;> rfl
    | nil =>
      cases b with
      | A => rfl
      | B => rfl
      | C => rfl
      | num n =>
        show some (if p + 1 = sp then n else -n) =
          (some (if p = sp then n else -n)).map (fun m => -m)
        simp only [Option.map]
        fin_cases sp <;> fin_cases p <;> simp

end Bucket

namespace TicTacToe

/-- A cell of the successor board is the old cell or the mover's fresh mark. -/
theorem result_cell_cases (s : State) (a : Action) (r c : Fin 3) :
    (result s a).2 r c = s.2 r c ∨ (result s a).2 r c = some (to_move s) := by
  show (if r = a.1 ∧ c = a.2 then some (to_move s) else s.2 r c) = s.2 r c ∨
    (if r = a.1 ∧ c = a.2 then some (to_move s) else s.2 r c) = some (to_move s)
  by_cases h : r = a.1 ∧ c = a.2
  · right; rw [if_pos h]
  · left; rw [if_neg h]

/-- A mark of the NON-mover on the successor board was already there. -/
theorem cell_winner_back {s : State} {a : Action} {q : Player}
    (hq : q ≠ to_move s) {r c : Fin 3}
    (h : (result s a).2 r c = some q) : s.2 r c = some q := by
  rcases result_cell_cases s a r c with hc | hc
  · rw [← hc]; exact h
  · rw [hc] at h
    exact absurd (Option.some.inj h).symm hq

/-- Making a move cannot create a line for the player who did NOT move. -/
theorem is_winner_result_back {s : State} {a : Action} {q : Player}
    (hq : q ≠ to_move s) (h : is_winner (result s a) q = true) :
    is_winner s q = true := by
  unfold is_winner at h ⊢
  simp only [Bool.or_eq_true, List.any_eq_true, List.all_eq_true,
    decide_eq_true_eq] at h ⊢
  rcases h with (⟨r, hr, hall⟩ | ⟨c, hc2, hall⟩) | (hall | hall)
  · exact Or.inl (Or.inl ⟨r, hr, fun c hcm => cell_winner_back hq (hall c hcm)⟩)
  · exact Or.inl (Or.inr ⟨c, hc2, fun r hrm => cell_winner_back hq (hall r hrm)⟩)
  · exact Or.inr (Or.inl (fun i him => cell_winner_back hq (hall i him)))
  · exact Or.inr (Or.inr (fun i him => cell_winner_back hq (hall i him)))

/-- Game invariant: in a state the drivers can reach, the player ABOUT to
move has no line (they would have completed it on their own previous move,
and the game would have stopped there). -/
theorem reachable_no_mover_win {s : State} (h : Reachable s) :
    is_winner s (to_move s) = false := by
  induction h with
  | init => decide
  | @step s a hs hterm hact ih =>
    by_cases hw : is_winner (result s a) (to_move s + 1) = true
    · have hone : to_move s + 1 ≠ to_move s := by
        have hall : ∀ p : Fin 2, p + 1 ≠ p := by decide
        exact hall _
      have hback := is_winner_result_back hone hw
      unfold is_terminal at hterm
      exact absurd hback (by simp [(Bool.or_eq_false_iff.mp hterm).1])
    · exact Bool.eq_false_iff.mpr hw

/-- Zero-sum utilities in tic-tac-toe, on reachable (terminal) states. -/
theorem ttt_utility_zero_sum {s : State} (hr : Reachable s)
    (ht : is_terminal s = true) (p : Player) :
    utility s p = -utility s (p + 1) := by
  have hinv := reachable_no_mover_win hr
  have h2 : p + 1 + 1 = p := by
    have hall : ∀ q : Fin 2, q + 1 + 1 = q := by decide
    exact hall _
  unfold utility
  by_cases hp : p = to_move s
  · have hp0 : is_winner s p = false := by rw [hp]; exact hinv
    by_cases hw : is_winner s (p + 1) = true <;> simp [hp0, h2, hw]
  · have hp2 : to_move s = p + 1 := by
      have hall : ∀ (x y : Fin 2), x ≠ y → y = x + 1 := by decide
      exact hall p (to_move s) hp
    have hw1 : is_winner s (p + 1) = false := by rw [← hp2]; exact hinv
    by_cases hw : is_winner s p = true <;> simp [hw, hw1, h2]

end TicTacToe

namespace TicTacToe

/-- Turn alternation in tic-tac-toe. -/
theorem ttt_to_move_result (s : State) (a : Action) :
    to_move (result s a) = to_move s + 1 := rfl

/-- An empty legal-action list is exactly a full board. -/
theorem actions_eq_nil_iff (s : State) :
    actions s = [] ↔
      allCoords.all (fun rc => (s.2 rc.1 rc.2).isSome) = true := by
  constructor
  · intro h
    refine List.all_eq_true.mpr (fun rc hrc => ?_)
    have hnone : (s.2 rc.1 rc.2).isNone = false := by
      by_contra hc
      have hmem : rc ∈ actions s :=
        List.mem_filter.2 ⟨hrc, by simp_all⟩
      rw [h] at hmem
      cases hmem
    cases hv : s.2 rc.1 rc.2 with
    | none => rw [hv] at hnone; cases hnone
    | some q => rfl
  · intro h
    have hall := List.all_eq_true.mp h
    refine List.filter_eq_nil.mpr (fun rc hrc => ?_)
    have := hall rc hrc
    cases hv : s.2 rc.1 rc.2 with
    | none => rw [hv] at this; cases this
    | some q => simp [hv]

/-- `is_terminal` unpacked: the previous mover has a line, or no move is
left. -/
theorem is_terminal_iff (s : State) :
    is_terminal s = true ↔
      (is_winner s (to_move s + 1) = true ∨ actions s = []) := by
  unfold is_terminal
  rw [Bool.or_eq_true, actions_eq_nil_iff]

/-- The board produced by `result`: the chosen cell now holds the mover's
mark, every other cell is the old cell (the source builds a deep copy and
assigns a single cell). -/
theorem result_board (s : State) (a : Action) :
    (result s a).2 a.1 a.2 = some (to_move s) ∧
      ∀ r c : Fin 3, (r, c) ≠ a → (result s a).2 r c = s.2 r c := by
  constructor
  · show (if a.1 = a.1 ∧ a.2 = a.2 then some (to_move s) else s.2 a.1 a.2)
        = some (to_move s)
    rw [if_pos ⟨rfl, rfl⟩]
  · intro r c hne
    show (if r = a.1 ∧ c = a.2 then some (to_move s) else s.2 r c) = s.2 r c
    rw [if_neg]
    intro hc
    exact hne (Prod.ext hc.1 hc.2)

end TicTacToe

/-- If the exception-propagating maximizing loop returns a result at all,
every successor evaluation in the list was defined. -/
theorem scanMaxGoM_some_defined {A : Type} (f : A → Option EInt) :
    ∀ (l : List A) (v : EInt) (b : Option A) (r : EInt × Option A),
    scanMaxGoM f l v b = some r → ∀ x ∈ l, ∃ w, f x = some w := by
  intro l
  induction l with
  | nil => intro v b r _ x hx; cases hx
  | cons a t ih =>
    intro v b r hr x hx
    cases hfa : f a with
    | none =>
      simp only [scanMaxGoM, hfa] at hr
      cases hr
    | some w =>
      simp only [scanMaxGoM, hfa] at hr
      rcases List.mem_cons.1 hx with hx | hx
      · exact ⟨w, by rw [hx]; exact hfa⟩
      · by_cases hc : EInt.blt v w = true
        · rw [if_pos hc] at hr; exact ih _ _ _ hr x hx
        · rw [if_neg hc] at hr; exact ih _ _ _ hr x hx

/-- First-argmax characterization of the exception-propagating maximizing
loop (the bucket game's loop): when it returns `(v, some a)`, every
successor evaluation was defined, `a` is the FIRST element whose value is
`v`, all earlier values are strictly below `v` and no later value exceeds
it. -/
theorem scanMaxGoM_some_spec {A : Type} (f : A → Option EInt) (l : List A)
    {v : EInt} {a : A}
    (h : scanMaxGoM f l .ninf none = some (v, some a)) :
    ∃ l1 l2, l = l1 ++ a :: l2 ∧ f a = some v ∧
      (∀ x ∈ l1, ∀ w, f x = some w → EInt.blt w v = true) ∧
      (∀ x ∈ l2, ∀ w, f x = some w → EInt.blt v w = false) := by
  have hdef := scanMaxGoM_some_defined f l .ninf none _ h
  have hg : ∀ x ∈ l, f x = some ((f x).getD .ninf) := by
    intro x hx
    obtain ⟨w, hw⟩ := hdef x hx
    rw [hw]
    rfl
  rw [scanMaxGoM_eq f (fun x => (f x).getD .ninf) hg] at h
  have h2 : scanMaxGo (fun x => (f x).getD .ninf) l .ninf none = (v, some a) :=
    Option.some.inj h
  obtain ⟨l1, l2, hdec, hfa, hbef, haft⟩ := scanMax_first_argmax _ _ h2
  have hmem : a ∈ l := by
    rw [hdec]; exact List.mem_append.2 (Or.inr (List.mem_cons_self a l2))
  refine ⟨l1, l2, hdec, ?_, ?_, ?_⟩
  · rw [hg a hmem]
    rw [hfa]
  · intro x hx w hw
    have hgd : (f x).getD .ninf = w := by rw [hw]; rfl
    have := hbef x hx
    rwa [hgd] at this
  · intro x hx w hw
    have hgd : (f x).getD .ninf = w := by rw [hw]; rfl
    have := haft x hx
    rwa [hgd] at this

namespace Bucket

theorem bucket_max_value_succ {fuel : Nat} {s : State} {player : Fin 2}
    (h : is_terminal s = false) :
    max_value (fuel + 1) s player =
      scanMaxGoM
        (fun a => (min_value fuel (result s a) player).map (fun r => r.1))
        (actions s) .ninf none := by
  rw [max_value, if_neg (by simp [h])]

theorem bucket_min_value_succ {fuel : Nat} {s : State} {player : Fin 2}
    (h : is_terminal s = false) :
    min_value (fuel + 1) s player =
      scanMaxGoM
        (fun a => (max_value fuel (result s a) player).map (fun r => r.1))
        (actions s) .ninf none := by
  rw [min_value, if_neg (by simp [h])]

end Bucket

/-- Claim C1: for the tic-tac-toe game and every reachable non-terminal
state, `alfa_beta_search` returns the same action as `minimax_search`, and
the value computed at the root by the alpha-beta maximizer (window
`(-inf, +inf)`) equals the value computed by the plain minimax maximizer.
Proved for ALL states with enough fuel for the full recursion (one unit more
than the number of empty cells), hence in particular for reachable ones. -/
theorem C1_alpha_beta_equals_minimax (fuel : Nat) (s : TicTacToe.State)
    (h1 : TicTacToe.is_terminal s = false)
    (h2 : (TicTacToe.actions s).length < fuel) :
    TicTacToe.alfa_beta_search fuel s = TicTacToe.minimax_search fuel s ∧
    (TicTacToe._max_ab fuel s (TicTacToe.to_move s) .ninf .pinf).1 =
      (TicTacToe._max_plain fuel s (TicTacToe.to_move s)).1 := by
  have h := TicTacToe.ab_plain_root fuel s (TicTacToe.to_move s) h2
  exact ⟨congrArg Prod.snd h, congrArg Prod.fst h⟩

/-- Witness for C1 at the empty board with fuel 10. -/
theorem C1_witness :
    TicTacToe.is_terminal TicTacToe.initial_state = false ∧
    (TicTacToe.actions TicTacToe.initial_state).length < 10 ∧
    (TicTacToe.alfa_beta_search 10 TicTacToe.initial_state =
        TicTacToe.minimax_search 10 TicTacToe.initial_state ∧
      (TicTacToe._max_ab 10 TicTacToe.initial_state
          (TicTacToe.to_move TicTacToe.initial_state) .ninf .pinf).1 =
        (TicTacToe._max_plain 10 TicTacToe.initial_state
          (TicTacToe.to_move TicTacToe.initial_state)).1) :=
  ⟨by decide, by decide,
    C1_alpha_beta_equals_minimax 10 TicTacToe.initial_state (by decide) (by decide)⟩

/-- Claim C2 (code bug): bucket_game.py's `min_value` is NOT the mirror-image
minimizer that the spec and the function's own docstring describe — it
initializes `v = -inf` and updates on `v2 > v`, so it MAXIMIZES over
`max_value` of the successors.  On the non-terminal state `(1, [-5, 15])`
with searching player 0 it returns value 15 choosing 15, while the
spec-modelled mirror minimizer returns -5 choosing -5. -/
theorem C2_bucket_min_value_maximizes :
    Bucket.is_terminal ((1 : Fin 2), [Bucket.BAct.num (-5), Bucket.BAct.num 15])
      = false ∧
    Bucket.min_value 3 ((1 : Fin 2), [Bucket.BAct.num (-5), Bucket.BAct.num 15]) 0
      = some (.int 15, some (Bucket.BAct.num 15)) ∧
    Bucket.min_value_mirror 3
        ((1 : Fin 2), [Bucket.BAct.num (-5), Bucket.BAct.num 15]) 0
      = some (.int (-5), some (Bucket.BAct.num (-5))) := by decide

/-- Claim C3 (code bug): from the initial bucket state the code's
`minimax_search` picks bucket 'A' (a consequence of the buggy maximizing
`min_value`), not 'C'; the driver's playout then goes to `(1, [-50, 50])`,
player 1 picks -50, and the terminal state `(0, [-50])` has utility -50 for
player 0, not 15. -/
theorem C3_bucket_playout :
    Bucket.minimax_search 4 Bucket.initial_state = some (some Bucket.BAct.A) ∧
    Bucket.result Bucket.initial_state Bucket.BAct.A
      = (1, [Bucket.BAct.num (-50), Bucket.BAct.num 50]) ∧
    Bucket.minimax_search 3 ((1 : Fin 2), [Bucket.BAct.num (-50), Bucket.BAct.num 50])
      = some (some (Bucket.BAct.num (-50))) ∧
    Bucket.result ((1 : Fin 2), [Bucket.BAct.num (-50), Bucket.BAct.num 50])
        (Bucket.BAct.num (-50)) = (0, [Bucket.BAct.num (-50)]) ∧
    Bucket.is_terminal ((0 : Fin 2), [Bucket.BAct.num (-50)]) = true ∧
    Bucket.utility ((0 : Fin 2), [Bucket.BAct.num (-50)]) 0 = some (-50) := by decide

/-- Claim C4 counterexample: in the halving game the terminal state `(0, 0)`
(number reached zero) still has the non-empty action list `["--", "/2"]`,
so `is_terminal` is not "the state has no further legal actions". -/
theorem C4_counterexample :
    Halving.is_terminal (0, 0) = true ∧ Halving.actions (0, 0) ≠ [] := by decide

/-- Claim C4 (amended): each game decides `is_terminal` by its own condition
rather than by emptiness of `actions`.  Halving: the number is zero, while
`actions` is always the fixed two-element list.  Bucket: `actions` has
exactly ONE element.  Tic-tac-toe: the previous mover has a line or the
board is full; an empty action list does imply terminal there, but not
conversely. -/
theorem C4_is_terminal_characterization :
    (∀ s : Halving.State, (Halving.is_terminal s = true ↔ s.2 = 0) ∧
      Halving.actions s ≠ []) ∧
    (∀ s : Bucket.State,
      Bucket.is_terminal s = true ↔ (Bucket.actions s).length = 1) ∧
    (∀ s : TicTacToe.State, TicTacToe.is_terminal s = true ↔
      (TicTacToe.is_winner s (TicTacToe.to_move s + 1) = true ∨
        TicTacToe.actions s = [])) := by
  refine ⟨fun s => ⟨?_, ?_⟩, fun s => ?_, fun s => TicTacToe.is_terminal_iff s⟩
  · unfold Halving.is_terminal
    exact beq_iff_eq
  · simp [Halving.actions]
  · unfold Bucket.is_terminal Bucket.actions
    simp

/-- Claim C5: zero-sum — on every terminal state the two players' utilities
are negations of one another.  For the bucket game this is stated on the
`Option` that models the `assert` in `utility` (whenever defined, the
opponent's utility is the negation).  For tic-tac-toe it is proved for the
game's states (the spec defines states as those created by `initial_state`
and `result`), using the invariant that the player to move never already
has a line. -/
theorem C5_zero_sum :
    (∀ (s : Halving.State) (p : Fin 2), Halving.is_terminal s = true →
      Halving.utility s p = -Halving.utility s (p + 1)) ∧
    (∀ (s : Bucket.State) (p : Fin 2), Bucket.is_terminal s = true →
      Bucket.utility s (p + 1) = (Bucket.utility s p).map (fun n => -n)) ∧
    (∀ (s : TicTacToe.State) (p : Fin 2), TicTacToe.Reachable s →
      TicTacToe.is_terminal s = true →
      TicTacToe.utility s p = -TicTacToe.utility s (p + 1)) :=
  ⟨fun s p h => Halving.halving_utility_zero_sum s p h,
   fun s p h => Bucket.bucket_utility_zero_sum s p h,
   fun s p hr ht => TicTacToe.ttt_utility_zero_sum hr ht p⟩

/-- Witness for C5: the halving terminal state `(0, 0)`, a bucket terminal
state with reward 5, and the reachable tic-tac-toe state in which player 0
has just completed the top row. -/
theorem C5_witness :
    Halving.utility (0, 0) 0 = -Halving.utility (0, 0) (0 + 1) ∧
    Bucket.utility ((0 : Fin 2), [Bucket.BAct.num 5]) (0 + 1) =
      (Bucket.utility ((0 : Fin 2), [Bucket.BAct.num 5]) 0).map (fun n => -n) ∧
    TicTacToe.utility
        (TicTacToe.result (TicTacToe.result (TicTacToe.result (TicTacToe.result
          (TicTacToe.result TicTacToe.initial_state (0, 0)) (1, 0)) (0, 1))
          (1, 1)) (0, 2)) 0 =
      -TicTacToe.utility
        (TicTacToe.result (TicTacToe.result (TicTacToe.result (TicTacToe.result
          (TicTacToe.result TicTacToe.initial_state (0, 0)) (1, 0)) (0, 1))
          (1, 1)) (0, 2)) (0 + 1) :=
  ⟨C5_zero_sum.1 (0, 0) 0 (by decide),
   C5_zero_sum.2.1 ((0 : Fin 2), [Bucket.BAct.num 5]) 0 (by decide),
   C5_zero_sum.2.2 _ 0
     (.step (.step (.step (.step (.step .init (by decide) (by decide))
       (by decide) (by decide)) (by decide) (by decide)) (by decide) (by decide))
       (by decide) (by decide))
     (by decide)⟩

/-- Claim C6: strict turn alternation — for every game, every non-terminal
state and every legal action, the player to move in the successor is the
other player (`+ 1` in `Fin 2` is exactly `(p + 1) mod 2`). -/
theorem C6_turn_alternation :
    (∀ (s : Halving.State) (a : Halving.Action),
      Halving.is_terminal s = false → a ∈ Halving.actions s →
      Halving.to_move (Halving.result s a) = Halving.to_move s + 1) ∧
    (∀ (s : Bucket.State) (a : Bucket.Action),
      Bucket.is_terminal s = false → a ∈ Bucket.actions s →
      Bucket.to_move (Bucket.result s a) = Bucket.to_move s + 1) ∧
    (∀ (s : TicTacToe.State) (a : TicTacToe.Action),
      TicTacToe.is_terminal s = false → a ∈ TicTacToe.actions s →
      TicTacToe.to_move (TicTacToe.result s a) = TicTacToe.to_move s + 1) :=
  ⟨fun s a _ _ => Halving.halving_to_move_result s a,
   fun s a _ _ => Bucket.bucket_to_move_result s a,
   fun s a _ _ => TicTacToe.ttt_to_move_result s a⟩

/-- Witness for C6: one concrete legal move in each game. -/
theorem C6_witness :
    Halving.to_move (Halving.result (0, 5) ("--")) = Halving.to_move (0, 5) + 1 ∧
    Bucket.to_move (Bucket.result Bucket.initial_state Bucket.BAct.A) =
      Bucket.to_move Bucket.initial_state + 1 ∧
    TicTacToe.to_move (TicTacToe.result TicTacToe.initial_state (0, 0)) =
      TicTacToe.to_move TicTacToe.initial_state + 1 :=
  ⟨C6_turn_alternation.1 (0, 5) ("--") (by decide) (by decide),
   C6_turn_alternation.2.1 Bucket.initial_state Bucket.BAct.A
     (by decide) (by decide),
   C6_turn_alternation.2.2 TicTacToe.initial_state (0, 0)
     (by decide) (by decide)⟩

/-- Claim C7: the halving game with N = 5, repeatedly playing the
minimax-chosen action: the sequence is `--`, `--`, `/2`, `--`, the terminal
state is `(player 0, number 0)`, and its utility for player 0 is 1. -/
theorem C7_halving_n5_trace :
    Halving.initial_state 5 = (0, 5) ∧
    Halving.minimax_search 10 (0, 5) = some ("--") ∧
    Halving.result (0, 5) ("--") = (1, 4) ∧
    Halving.minimax_search 10 (1, 4) = some ("--") ∧
    Halving.result (1, 4) ("--") = (0, 3) ∧
    Halving.minimax_search 10 (0, 3) = some ("/2") ∧
    Halving.result (0, 3) ("/2") = (1, 1) ∧
    Halving.minimax_search 10 (1, 1) = some ("--") ∧
    Halving.result (1, 1) ("--") = (0, 0) ∧
    Halving.is_terminal (0, 0) = true ∧
    Halving.utility (0, 0) 0 = 1 := by decide

/-- Claim C8: on a terminal state every search returns a null action, and
the underlying maximizer returns `(utility(s, to_move(s)), none)` at once
(the terminal branch of each value function, before any successor is
built).  For the bucket game this is stated under definedness of `utility`
(whose `assert` the `Option` models). -/
theorem C8_terminal_search :
    (∀ (fuel : Nat) (s : Halving.State) (p : Fin 2),
      Halving.is_terminal s = true →
      Halving.minimax_search (fuel + 1) s = none ∧
      Halving.max_value (fuel + 1) s p = (.int (Halving.utility s p), none)) ∧
    (∀ (fuel : Nat) (s : Bucket.State) (u : Int),
      Bucket.is_terminal s = true →
      Bucket.utility s (Bucket.to_move s) = some u →
      Bucket.minimax_search (fuel + 1) s = some none ∧
      Bucket.max_value (fuel + 1) s (Bucket.to_move s) = some (.int u, none)) ∧
    (∀ (fuel : Nat) (s : TicTacToe.State) (p : Fin 2) (alpha beta : EInt),
      TicTacToe.is_terminal s = true →
      TicTacToe.minimax_search (fuel + 1) s = none ∧
      TicTacToe.alfa_beta_search (fuel + 1) s = none ∧
      TicTacToe._max_plain (fuel + 1) s p = (.int (TicTacToe.utility s p), none) ∧
      TicTacToe._max_ab (fuel + 1) s p alpha beta =
        (.int (TicTacToe.utility s p), none)) := by
  refine ⟨fun fuel s p ht => ⟨?_, ?_⟩, fun fuel s u ht hu => ⟨?_, ?_⟩,
    fun fuel s p alpha beta ht => ⟨?_, ?_, ?_, ?_⟩⟩
  · show (Halving.max_value (fuel + 1) s (Halving.to_move s)).2 = none
    rw [Halving.max_value_term ht]
  · exact Halving.max_value_term ht
  · show (Bucket.max_value (fuel + 1) s (Bucket.to_move s)).map
      (fun r => r.2) = some none
    rw [Bucket.bucket_max_value_term ht, hu]
    rfl
  · rw [Bucket.bucket_max_value_term ht, hu]
    rfl
  · show (TicTacToe._max_plain (fuel + 1) s (TicTacToe.to_move s)).2 = none
    rw [TicTacToe._max_plain_term ht]
  · show (TicTacToe._max_ab (fuel + 1) s (TicTacToe.to_move s) .ninf .pinf).2 = none
    rw [TicTacToe._max_ab_term ht]
  · exact TicTacToe._max_plain_term ht
  · exact TicTacToe._max_ab_term ht

/-- Witness for C8: concrete terminal states of each game. -/
theorem C8_witness :
    (Halving.minimax_search 1 (0, 0) = none ∧
      Halving.max_value 1 (0, 0) 0 = (.int (Halving.utility (0, 0) 0), none)) ∧
    (Bucket.minimax_search 1 ((0 : Fin 2), [Bucket.BAct.num 7]) = some none ∧
      Bucket.max_value 1 ((0 : Fin 2), [Bucket.BAct.num 7])
        (Bucket.to_move ((0 : Fin 2), [Bucket.BAct.num 7])) = some (.int 7, none)) ∧
    (TicTacToe.minimax_search 1 ((0 : Fin 2), fun _ _ => some 0) = none ∧
      TicTacToe.alfa_beta_search 1 ((0 : Fin 2), fun _ _ => some 0) = none ∧
      TicTacToe._max_plain 1 ((0 : Fin 2), fun _ _ => some 0) 0 =
        (.int (TicTacToe.utility ((0 : Fin 2), fun _ _ => some 0) 0), none) ∧
      TicTacToe._max_ab 1 ((0 : Fin 2), fun _ _ => some 0) 0 .ninf .pinf =
        (.int (TicTacToe.utility ((0 : Fin 2), fun _ _ => some 0) 0), none)) :=
  ⟨C8_terminal_search.1 0 (0, 0) 0 (by decide),
   C8_terminal_search.2.1 0 ((0 : Fin 2), [Bucket.BAct.num 7]) 7
     (by decide) (by decide),
   C8_terminal_search.2.2 0 ((0 : Fin 2), fun _ _ => some 0) 0 .ninf .pinf
     (by decide)⟩

/-- Claim C9 counterexample: bucket_game.py's `min_value` — a minimizing
value function — does NOT return the first action achieving its extremal
(minimal) value.  On the non-terminal state `(1, [3, 1])` with searching
player 0 it returns value 3 via the action 3, although the successor of
action 1 has the strictly smaller value 1 (the spec-modelled mirror
minimizer indeed returns `(1, 1)`). -/
theorem C9_counterexample :
    Bucket.is_terminal ((1 : Fin 2), [Bucket.BAct.num 3, Bucket.BAct.num 1])
      = false ∧
    Bucket.min_value 3 ((1 : Fin 2), [Bucket.BAct.num 3, Bucket.BAct.num 1]) 0
      = some (.int 3, some (Bucket.BAct.num 3)) ∧
    (Bucket.max_value 2
        (Bucket.result ((1 : Fin 2), [Bucket.BAct.num 3, Bucket.BAct.num 1])
          (Bucket.BAct.num 1)) 0).map (fun r => r.1) = some (.int 1) ∧
    EInt.blt (.int 1) (.int 3) = true ∧
    Bucket.min_value_mirror 3
        ((1 : Fin 2), [Bucket.BAct.num 3, Bucket.BAct.num 1]) 0
      = some (.int 1, some (Bucket.BAct.num 1)) := by decide

/-- Claim C9 (amended): first-achiever tie-breaking, for every value
function of every game as implemented.  In the correct value functions —
halving `max_value`/`min_value`, tic-tac-toe `_max_plain`/`_min_plain`, and
bucket `max_value` — when the loop returns `(v, some a)` on a non-terminal
state, `a` is the FIRST action of `actions(state)` achieving the extremal
value `v`: every earlier action's successor value is strictly worse and no
later action's value is strictly better, so a later action with an equal
value never replaces the choice.  Bucket's `min_value`, which by the C2 bug
runs the maximizing loop, likewise keeps the first action achieving the
value it actually computes (its maximum), not the minimum.  And
`minimax_search` is deterministic in all three games: two calls on the same
state give the identical action. -/
theorem C9_first_extremal_tie_break :
    (∀ (fuel : Nat) (s : Halving.State) (p : Fin 2) (v : EInt)
        (a : Halving.Action), Halving.is_terminal s = false →
      Halving.max_value (fuel + 1) s p = (v, some a) →
      ∃ l1 l2, Halving.actions s = l1 ++ a :: l2 ∧
        (Halving.min_value fuel (Halving.result s a) p).1 = v ∧
        (∀ x ∈ l1,
          EInt.blt ((Halving.min_value fuel (Halving.result s x) p).1) v = true) ∧
        (∀ x ∈ l2,
          EInt.blt v ((Halving.min_value fuel (Halving.result s x) p).1) = false)) ∧
    (∀ (fuel : Nat) (s : Halving.State) (p : Fin 2) (v : EInt)
        (a : Halving.Action), Halving.is_terminal s = false →
      Halving.min_value (fuel + 1) s p = (v, some a) →
      ∃ l1 l2, Halving.actions s = l1 ++ a :: l2 ∧
        (Halving.max_value fuel (Halving.result s a) p).1 = v ∧
        (∀ x ∈ l1,
          EInt.blt v ((Halving.max_value fuel (Halving.result s x) p).1) = true) ∧
        (∀ x ∈ l2,
          EInt.blt ((Halving.max_value fuel (Halving.result s x) p).1) v = false)) ∧
    (∀ (fuel : Nat) (s : TicTacToe.State) (p : Fin 2) (v : EInt)
        (a : TicTacToe.Action), TicTacToe.is_terminal s = false →
      TicTacToe._max_plain (fuel + 1) s p = (v, some a) →
      ∃ l1 l2, TicTacToe.actions s = l1 ++ a :: l2 ∧
        (TicTacToe._min_plain fuel (TicTacToe.result s a) p).1 = v ∧
        (∀ x ∈ l1,
          EInt.blt ((TicTacToe._min_plain fuel (TicTacToe.result s x) p).1) v
            = true) ∧
        (∀ x ∈ l2,
          EInt.blt v ((TicTacToe._min_plain fuel (TicTacToe.result s x) p).1)
            = false)) ∧
    (∀ (fuel : Nat) (s : TicTacToe.State) (p : Fin 2) (v : EInt)
        (a : TicTacToe.Action), TicTacToe.is_terminal s = false →
      TicTacToe._min_plain (fuel + 1) s p = (v, some a) →
      ∃ l1 l2, TicTacToe.actions s = l1 ++ a :: l2 ∧
        (TicTacToe._max_plain fuel (TicTacToe.result s a) p).1 = v ∧
        (∀ x ∈ l1,
          EInt.blt v ((TicTacToe._max_plain fuel (TicTacToe.result s x) p).1)
            = true) ∧
        (∀ x ∈ l2,
          EInt.blt ((TicTacToe._max_plain fuel (TicTacToe.result s x) p).1) v
            = false)) ∧
    (∀ (fuel : Nat) (s : Bucket.State) (p : Fin 2) (v : EInt)
        (a : Bucket.Action), Bucket.is_terminal s = false →
      Bucket.max_value (fuel + 1) s p = some (v, some a) →
      ∃ l1 l2, Bucket.actions s = l1 ++ a :: l2 ∧
        (Bucket.min_value fuel (Bucket.result s a) p).map (fun r => r.1)
          = some v ∧
        (∀ x ∈ l1, ∀ w,
          (Bucket.min_value fuel (Bucket.result s x) p).map (fun r => r.1)
            = some w → EInt.blt w v = true) ∧
        (∀ x ∈ l2, ∀ w,
          (Bucket.min_value fuel (Bucket.result s x) p).map (fun r => r.1)
            = some w → EInt.blt v w = false)) ∧
    (∀ (fuel : Nat) (s : Bucket.State) (p : Fin 2) (v : EInt)
        (a : Bucket.Action), Bucket.is_terminal s = false →
      Bucket.min_value (fuel + 1) s p = some (v, some a) →
      ∃ l1 l2, Bucket.actions s = l1 ++ a :: l2 ∧
        (Bucket.max_value fuel (Bucket.result s a) p).map (fun r => r.1)
          = some v ∧
        (∀ x ∈ l1, ∀ w,
          (Bucket.max_value fuel (Bucket.result s x) p).map (fun r => r.1)
            = some w → EInt.blt w v = true) ∧
        (∀ x ∈ l2, ∀ w,
          (Bucket.max_value fuel (Bucket.result s x) p).map (fun r => r.1)
            = some w → EInt.blt v w = false)) ∧
    (∀ (fuel : Nat) (s : Halving.State),
      Halving.minimax_search fuel s = Halving.minimax_search fuel s) ∧
    (∀ (fuel : Nat) (s : Bucket.State),
      Bucket.minimax_search fuel s = Bucket.minimax_search fuel s) ∧
    (∀ (fuel : Nat) (s : TicTacToe.State),
      TicTacToe.minimax_search fuel s = TicTacToe.minimax_search fuel s) := by
  refine ⟨?_, ?_, ?_, ?_, ?_, ?_, fun _ _ => rfl, fun _ _ => rfl, fun _ _ => rfl⟩
  · intro fuel s p v a h heq
    rw [Halving.max_value_succ h] at heq
    exact scanMax_first_argmax _ _ heq
  · intro fuel s p v a h heq
    rw [Halving.min_value_succ h] at heq
    exact scanMin_first_argmin _ _ heq
  · intro fuel s p v a h heq
    rw [TicTacToe._max_plain_succ h] at heq
    exact scanMax_first_argmax _ _ heq
  · intro fuel s p v a h heq
    rw [TicTacToe._min_plain_succ h] at heq
    exact scanMin_first_argmin _ _ heq
  · intro fuel s p v a h heq
    rw [Bucket.bucket_max_value_succ h] at heq
    exact scanMaxGoM_some_spec _ _ heq
  · intro fuel s p v a h heq
    rw [Bucket.bucket_min_value_succ h] at heq
    exact scanMaxGoM_some_spec _ _ heq

/-- Witness for C9: the halving maximizer at `(0, 5)` keeps the first action
`--` (value 1, which the second action cannot beat), and the bucket
maximizer at the initial state keeps `A`, the first action achieving its
(bug-inflated) value 50. -/
theorem C9_witness :
    (∃ l1 l2, Halving.actions (0, 5) = l1 ++ ("--") :: l2 ∧
      (Halving.min_value 9 (Halving.result (0, 5) ("--")) 0).1 = .int 1 ∧
      (∀ x ∈ l1,
        EInt.blt ((Halving.min_value 9 (Halving.result (0, 5) x) 0).1)
          (.int 1) = true) ∧
      (∀ x ∈ l2,
        EInt.blt (.int 1) ((Halving.min_value 9 (Halving.result (0, 5) x) 0).1)
          = false)) ∧
    (∃ l1 l2, Bucket.actions Bucket.initial_state = l1 ++ Bucket.BAct.A :: l2 ∧
      (Bucket.min_value 3 (Bucket.result Bucket.initial_state Bucket.BAct.A) 0).map
          (fun r => r.1) = some (.int 50) ∧
      (∀ x ∈ l1, ∀ w,
        (Bucket.min_value 3 (Bucket.result Bucket.initial_state x) 0).map
          (fun r => r.1) = some w → EInt.blt w (.int 50) = true) ∧
      (∀ x ∈ l2, ∀ w,
        (Bucket.min_value 3 (Bucket.result Bucket.initial_state x) 0).map
          (fun r => r.1) = some w → EInt.blt (.int 50) w = false)) :=
  ⟨C9_first_extremal_tie_break.1 9 (0, 5) 0 (.int 1) ("--")
      (by decide) (by decide),
   C9_first_extremal_tie_break.2.2.2.2.1 3 Bucket.initial_state 0 (.int 50)
      Bucket.BAct.A (by decide) (by decide)⟩

/-- Claim C10: `result` of tic-tac-toe is pure value semantics — the state it
returns carries a fresh board equal to the input board except that the
chosen cell now holds the mover's mark; the input state, being a value of
the embedding, is untouched by construction (the source guarantees this
with `deepcopy`). -/
theorem C10_result_fresh_board (s : TicTacToe.State) (a : TicTacToe.Action)
    (h : a ∈ TicTacToe.actions s) :
    (TicTacToe.result s a).2 a.1 a.2 = some (TicTacToe.to_move s) ∧
    ∀ r c : Fin 3, (r, c) ≠ a → (TicTacToe.result s a).2 r c = s.2 r c :=
  TicTacToe.result_board s a

/-- Witness for C10: the first move in the centre cell. -/
theorem C10_witness :
    (TicTacToe.result TicTacToe.initial_state (1, 1)).2 1 1 =
      some (TicTacToe.to_move TicTacToe.initial_state) ∧
    ∀ r c : Fin 3, (r, c) ≠ ((1 : Fin 3), (1 : Fin 3)) →
      (TicTacToe.result TicTacToe.initial_state (1, 1)).2 r c =
        TicTacToe.initial_state.2 r c :=
  C10_result_fresh_board TicTacToe.initial_state (1, 1) (by decide)
